import Mathlib

set_option maxHeartbeats 1000000

/-!
Verification development for the task-queue program.

The program stores tasks carrying a priority and a resource-cost vector and
hands a consumer the best fitting task.  It provides three interchangeable
storage strategies: a flat list (`TaskQueue_list`), a dictionary of lists
keyed by priority (`TaskQueue_dict_of_lists`), and a dictionary of
dictionaries keyed by priority and task id (`TaskQueue_dict_of_dicts`).
Below, each Python class is embedded as a Lean state type with pure
`add_task` and `get_task` functions, and the specification claims are proved
about those functions.
-/

/-- Model of the `Resources` dataclass: three integer components
(`ram`, `cpu_cores`, `gpu_count`). -/
structure Resources where
  ram : Int
  cpu_cores : Int
  gpu_count : Int
deriving DecidableEq

/-- Model of `Resources.__le__`: the comparison is true iff all three
resource components satisfy the componentwise comparison. -/
def Resources.le (a b : Resources) : Bool :=
  decide (a.ram ≤ b.ram) && decide (a.cpu_cores ≤ b.cpu_cores) &&
    decide (a.gpu_count ≤ b.gpu_count)

/-- Model of the `Task` dataclass (named `QTask` here because `Task` already
exists in Lean).  Python's dataclass equality compares all fields, which the
derived `DecidableEq` mirrors. -/
structure QTask where
  id : Int
  priority : Int
  resources : Resources
  content : String
  result : String
deriving DecidableEq

/-- The matching condition used by all three `get_task` methods:
`curtask.resources <= available_resources`. -/
def fits (t : QTask) (R : Resources) : Bool := Resources.le t.resources R

/-- Model of Python's `list.remove`: drop the first element equal to `a`
(dataclass equality), keeping the rest of the list unchanged. -/
def removeFirst (a : QTask) : List QTask → List QTask
  | [] => []
  | x :: xs => if x = a then xs else x :: removeFirst a xs

/-- Insert a task in front of the first element with a strictly larger
priority set aside; equal priorities keep the inserted (earlier) task first. -/
def sortInsert (t : QTask) : List QTask → List QTask
  | [] => [t]
  | x :: xs => if t.priority ≤ x.priority then t :: x :: xs else x :: sortInsert t xs

/-- Stable sort by the priority key.  Python's `list.sort(key=attrgetter('priority'))`
is a stable sort by the same key, and any two stable sorts by the same key
compute the same list, so this function computes exactly the sorted list the
program builds. -/
def sortByPriority : List QTask → List QTask
  | [] => []
  | x :: xs => sortInsert x (sortByPriority xs)

/-- Compare a candidate task with the best task seen so far: the candidate
(which stands earlier in the list) wins unless the previous best has a
strictly smaller priority value. -/
def better (t : QTask) : Option QTask → Option QTask
  | none => some t
  | some b => if t.priority ≤ b.priority then some t else some b

/-- The earliest element of minimal priority. -/
def pickMin : List QTask → Option QTask
  | [] => none
  | t :: l => better t (pickMin l)

/-- The record a withdrawal returns: the earliest submitted fitting record of
numerically minimal priority. -/
def pick (R : Resources) : List QTask → Option QTask
  | [] => none
  | t :: l => if fits t R then better t (pick R l) else pick R l

/-- First fitting task of a list: the inner loop of the bucketed strategies. -/
def findFit (R : Resources) : List QTask → Option QTask
  | [] => none
  | t :: l => if fits t R then some t else findFit R l

/-- Model of `TaskQueue_list.add_task`: append the new task to the storage list. -/
def TaskQueue_list.add_task (new_task : QTask) (storage : List QTask) : List QTask :=
  storage ++ [new_task]

/-- Model of `TaskQueue_list.get_task`: filter the fitting tasks, stable-sort
them by priority, and if the result is nonempty return its first element and
remove it (by value, first occurrence) from the storage. -/
def TaskQueue_list.get_task (available_resources : Resources) (storage : List QTask) :
    Option QTask × List QTask :=
  match sortByPriority (storage.filter (fun t => fits t available_resources)) with
  | [] => (none, storage)
  | t :: _ => (some t, removeFirst t storage)

/-! Equation lemmas in a convenient form. -/

lemma pick_cons_pos (R : Resources) (t : QTask) (l : List QTask)
    (hf : fits t R = true) : pick R (t :: l) = better t (pick R l) := by
  simp [pick, hf]

lemma pick_cons_neg (R : Resources) (t : QTask) (l : List QTask)
    (hf : fits t R = false) : pick R (t :: l) = pick R l := by
  simp [pick, hf]

lemma findFit_cons_pos (R : Resources) (t : QTask) (l : List QTask)
    (hf : fits t R = true) : findFit R (t :: l) = some t := by
  simp [findFit, hf]

lemma findFit_cons_neg (R : Resources) (t : QTask) (l : List QTask)
    (hf : fits t R = false) : findFit R (t :: l) = findFit R l := by
  simp [findFit, hf]

lemma better_ne_none (t : QTask) (o : Option QTask) : better t o ≠ none := by
  cases o with
  | none => simp [better]
  | some b =>
    simp only [better]
    by_cases hp : t.priority ≤ b.priority <;> simp [hp]

/-- Case analysis on the winner of `better`. -/
lemma better_eq_some (t : QTask) (o : Option QTask) (b : QTask)
    (h : better t o = some b) :
    (b = t ∧ (∀ c, o = some c → t.priority ≤ c.priority)) ∨
      (o = some b ∧ b.priority < t.priority) := by
  cases o with
  | none =>
    simp only [better] at h
    cases h
    exact Or.inl ⟨rfl, by intro c hc; cases hc⟩
  | some c =>
    simp only [better] at h
    by_cases hp : t.priority ≤ c.priority
    · rw [if_pos hp] at h
      cases h
      exact Or.inl ⟨rfl, by intro d hd; cases hd; exact hp⟩
    · rw [if_neg hp] at h
      cases h
      exact Or.inr ⟨rfl, lt_of_not_le hp⟩

/-! Basic lemmas about the selection functions. -/

lemma pickMin_eq_none_iff (l : List QTask) : pickMin l = none ↔ l = [] := by
  cases l with
  | nil => simp [pickMin]
  | cons t l => simp [pickMin, better_ne_none t (pickMin l)]

lemma sortInsert_head (t : QTask) (l : List QTask) :
    (sortInsert t l).head? = better t l.head? := by
  cases l with
  | nil => rfl
  | cons x xs =>
    simp only [sortInsert, better, List.head?]
    by_cases hp : t.priority ≤ x.priority <;> simp [hp]

lemma sortByPriority_head (l : List QTask) : (sortByPriority l).head? = pickMin l := by
  induction l with
  | nil => rfl
  | cons x xs ih => simp [sortByPriority, sortInsert_head, ih, pickMin]

lemma pick_eq_pickMin_filter (R : Resources) (l : List QTask) :
    pick R l = pickMin (l.filter (fun t => fits t R)) := by
  induction l with
  | nil => rfl
  | cons t l ih =>
    cases hf : fits t R with
    | true => simp [pick_cons_pos R t l hf, List.filter_cons, hf, pickMin, ih]
    | false => simp [pick_cons_neg R t l hf, List.filter_cons, hf, ih]

/-- The first component of `TaskQueue_list.get_task` is `pick`. -/
lemma TaskQueue_list.get_task_fst (R : Resources) (s : List QTask) :
    (TaskQueue_list.get_task R s).1 = pick R s := by
  unfold TaskQueue_list.get_task
  rw [pick_eq_pickMin_filter, ← sortByPriority_head]
  cases sortByPriority (s.filter (fun t => fits t R)) <;> rfl

/-- When nothing fits, the flat-list storage is returned unchanged. -/
lemma TaskQueue_list.get_task_snd_none (R : Resources) (s : List QTask)
    (h : pick R s = none) : (TaskQueue_list.get_task R s).2 = s := by
  unfold TaskQueue_list.get_task
  rw [pick_eq_pickMin_filter, ← sortByPriority_head] at h
  cases hs : sortByPriority (s.filter (fun t => fits t R)) with
  | nil => rfl
  | cons t l => rw [hs] at h; simp at h

/-- When `pick` selects a record, the flat-list strategy removes exactly its
first occurrence from the storage. -/
lemma TaskQueue_list.get_task_snd_some (R : Resources) (s : List QTask) (b : QTask)
    (h : pick R s = some b) : (TaskQueue_list.get_task R s).2 = removeFirst b s := by
  unfold TaskQueue_list.get_task
  rw [pick_eq_pickMin_filter, ← sortByPriority_head] at h
  cases hs : sortByPriority (s.filter (fun t => fits t R)) with
  | nil => rw [hs] at h; simp at h
  | cons t l =>
    rw [hs] at h
    simp only [List.head?] at h
    cases h
    rfl

/-! Properties of `pick`: membership, fit, minimality, earliest position. -/

lemma pick_mem (R : Resources) (l : List QTask) (b : QTask)
    (h : pick R l = some b) : b ∈ l := by
  induction l with
  | nil => simp [pick] at h
  | cons t l ih =>
    cases hf : fits t R with
    | false =>
      rw [pick_cons_neg R t l hf] at h
      exact List.mem_cons_of_mem _ (ih h)
    | true =>
      rw [pick_cons_pos R t l hf] at h
      rcases better_eq_some t _ b h with ⟨rfl, _⟩ | ⟨hm, _⟩
      · exact List.mem_cons_self _ _
      · exact List.mem_cons_of_mem _ (ih hm)

lemma pick_fits (R : Resources) (l : List QTask) (b : QTask)
    (h : pick R l = some b) : fits b R = true := by
  induction l with
  | nil => simp [pick] at h
  | cons t l ih =>
    cases hf : fits t R with
    | false =>
      rw [pick_cons_neg R t l hf] at h
      exact ih h
    | true =>
      rw [pick_cons_pos R t l hf] at h
      rcases better_eq_some t _ b h with ⟨rfl, _⟩ | ⟨hm, _⟩
      · exact hf
      · exact ih hm

lemma pick_eq_none_iff (R : Resources) (l : List QTask) :
    pick R l = none ↔ ∀ t ∈ l, fits t R = false := by
  induction l with
  | nil => simp [pick]
  | cons t l ih =>
    cases hf : fits t R with
    | true =>
      rw [pick_cons_pos R t l hf]
      simp only [better_ne_none t (pick R l), false_iff]
      intro hall
      rw [hall t (List.mem_cons_self _ _)] at hf
      cases hf
    | false =>
      rw [pick_cons_neg R t l hf, ih]
      constructor
      · intro h u hu
        rcases List.mem_cons.mp hu with rfl | hu
        · exact hf
        · exact h u hu
      · intro h u hu
        exact h u (List.mem_cons_of_mem _ hu)

lemma pick_min_priority (R : Resources) (l : List QTask) (b : QTask)
    (h : pick R l = some b) :
    ∀ t ∈ l, fits t R = true → b.priority ≤ t.priority := by
  induction l generalizing b with
  | nil => simp [pick] at h
  | cons t l ih =>
    intro u hu hfu
    cases hf : fits t R with
    | false =>
      rw [pick_cons_neg R t l hf] at h
      rcases List.mem_cons.mp hu with rfl | hu
      · rw [hfu] at hf; cases hf
      · exact ih b h u hu hfu
    | true =>
      rw [pick_cons_pos R t l hf] at h
      rcases better_eq_some t _ b h with ⟨rfl, hval⟩ | ⟨hm, hlt⟩
      · rcases List.mem_cons.mp hu with rfl | hu
        · exact le_refl _
        · cases hm : pick R l with
          | none =>
            rw [pick_eq_none_iff] at hm
            rw [hm u hu] at hfu
            cases hfu
          | some c =>
            exact le_trans (hval c hm) (ih c hm u hu hfu)
      · rcases List.mem_cons.mp hu with rfl | hu
        · exact le_of_lt hlt
        · exact ih b hm u hu hfu

lemma pick_earliest (R : Resources) (l : List QTask) (b : QTask)
    (h : pick R l = some b) :
    ∃ l1 l2, l = l1 ++ b :: l2 ∧
      ∀ u ∈ l1, fits u R = true → b.priority < u.priority := by
  induction l with
  | nil => simp [pick] at h
  | cons t l ih =>
    cases hf : fits t R with
    | false =>
      rw [pick_cons_neg R t l hf] at h
      obtain ⟨l1, l2, rfl, hl1⟩ := ih h
      refine ⟨t :: l1, l2, rfl, ?_⟩
      intro u hu hfu
      rcases List.mem_cons.mp hu with rfl | hu
      · rw [hfu] at hf; cases hf
      · exact hl1 u hu hfu
    | true =>
      rw [pick_cons_pos R t l hf] at h
      rcases better_eq_some t _ b h with ⟨rfl, _⟩ | ⟨hm, hlt⟩
      · exact ⟨[], l, rfl, by simp⟩
      · obtain ⟨l1, l2, rfl, hl1⟩ := ih hm
        refine ⟨t :: l1, l2, rfl, ?_⟩
        intro u hu hfu
        rcases List.mem_cons.mp hu with rfl | hu
        · exact hlt
        · exact hl1 u hu hfu

/-! Properties of `findFit`. -/

lemma findFit_eq_none_iff (R : Resources) (l : List QTask) :
    findFit R l = none ↔ ∀ t ∈ l, fits t R = false := by
  induction l with
  | nil => simp [findFit]
  | cons t l ih =>
    cases hf : fits t R with
    | true =>
      rw [findFit_cons_pos R t l hf]
      simp only [false_iff, reduceCtorEq]
      intro hall
      rw [hall t (List.mem_cons_self _ _)] at hf
      cases hf
    | false =>
      rw [findFit_cons_neg R t l hf, ih]
      constructor
      · intro h u hu
        rcases List.mem_cons.mp hu with rfl | hu
        · exact hf
        · exact h u hu
      · intro h u hu
        exact h u (List.mem_cons_of_mem _ hu)

lemma findFit_mem (R : Resources) (l : List QTask) (b : QTask)
    (h : findFit R l = some b) : b ∈ l ∧ fits b R = true := by
  induction l with
  | nil => simp [findFit] at h
  | cons t l ih =>
    cases hf : fits t R with
    | true =>
      rw [findFit_cons_pos R t l hf] at h
      cases h
      exact ⟨List.mem_cons_self _ _, hf⟩
    | false =>
      rw [findFit_cons_neg R t l hf] at h
      obtain ⟨hm, hb⟩ := ih h
      exact ⟨List.mem_cons_of_mem _ hm, hb⟩

/-- Specialised filter-cons equations for the priority-bucket predicate. -/
lemma filter_prio_cons_pos (x : QTask) (xs : List QTask) (p : Int)
    (h : (x.priority == p) = true) :
    (x :: xs).filter (fun t => t.priority == p) =
      x :: xs.filter (fun t => t.priority == p) :=
  List.filter_cons_of_pos h

lemma filter_prio_cons_neg (x : QTask) (xs : List QTask) (p : Int)
    (h : ¬((x.priority == p) = true)) :
    (x :: xs).filter (fun t => t.priority == p) =
      xs.filter (fun t => t.priority == p) :=
  List.filter_cons_of_neg h

/-- Within the bucket of the selected record's priority, the selected record
is the first fitting element. -/
lemma pick_findFit_filter (R : Resources) (l : List QTask) (b : QTask)
    (h : pick R l = some b) :
    findFit R (l.filter (fun t => t.priority == b.priority)) = some b := by
  induction l generalizing b with
  | nil => simp [pick] at h
  | cons t l ih =>
    cases hf : fits t R with
    | true =>
      rw [pick_cons_pos R t l hf] at h
      rcases better_eq_some t _ b h with ⟨rfl, _⟩ | ⟨hm, hlt⟩
      · rw [filter_prio_cons_pos _ _ _ (by simp)]
        exact findFit_cons_pos R b _ hf
      · rw [filter_prio_cons_neg _ _ _ (by
          simp only [beq_iff_eq]
          exact fun he => absurd hlt (not_lt.mpr (le_of_eq he)))]
        exact ih b hm
    | false =>
      rw [pick_cons_neg R t l hf] at h
      by_cases he : (t.priority == b.priority) = true
      · rw [filter_prio_cons_pos _ _ _ he, findFit_cons_neg R t _ hf]
        exact ih b h
      · rw [filter_prio_cons_neg _ _ _ he]
        exact ih b h

/-- Buckets of a strictly smaller priority than the selected record contain
no fitting element. -/
lemma pick_filter_lt_none (R : Resources) (l : List QTask) (b : QTask) (p : Int)
    (h : pick R l = some b) (hp : p < b.priority) :
    findFit R (l.filter (fun t => t.priority == p)) = none := by
  rw [findFit_eq_none_iff]
  intro u hu
  rw [List.mem_filter] at hu
  obtain ⟨hul, hup⟩ := hu
  cases hfu : fits u R with
  | false => rfl
  | true =>
    exfalso
    have hle := pick_min_priority R l b h u hul hfu
    have hup2 : u.priority = p := by simpa using hup
    rw [hup2] at hle
    exact absurd hp (not_lt.mpr hle)

/-! Properties of `removeFirst`. -/

lemma removeFirst_sublist (a : QTask) (l : List QTask) :
    (removeFirst a l).Sublist l := by
  induction l with
  | nil => simp [removeFirst]
  | cons x xs ih =>
    by_cases hx : x = a
    · simp [removeFirst, hx]
    · simp only [removeFirst, hx, if_neg]
      exact List.Sublist.cons₂ x ih

/-- Removing a task whose priority differs from `p` does not change the
priority-`p` bucket. -/
lemma filter_removeFirst_ne (b : QTask) (s : List QTask) (p : Int)
    (h : b.priority ≠ p) :
    (removeFirst b s).filter (fun t => t.priority == p) =
      s.filter (fun t => t.priority == p) := by
  induction s with
  | nil => rfl
  | cons x xs ih =>
    by_cases hx : x = b
    · have hxp : ¬((x.priority == p) = true) := by
        rw [hx]
        simp only [beq_iff_eq]
        exact h
      simp only [removeFirst, if_pos hx]
      rw [filter_prio_cons_neg _ _ _ hxp]
    · simp only [removeFirst, if_neg hx]
      by_cases hxp : (x.priority == p) = true
      · rw [filter_prio_cons_pos _ _ _ hxp, filter_prio_cons_pos _ _ _ hxp, ih]
      · rw [filter_prio_cons_neg _ _ _ hxp, filter_prio_cons_neg _ _ _ hxp, ih]

/-- Removing a task commutes with restricting to its own priority bucket. -/
lemma filter_removeFirst_eq (b : QTask) (s : List QTask) :
    (removeFirst b s).filter (fun t => t.priority == b.priority) =
      removeFirst b (s.filter (fun t => t.priority == b.priority)) := by
  induction s with
  | nil => rfl
  | cons x xs ih =>
    by_cases hx : x = b
    · simp only [removeFirst, if_pos hx]
      rw [filter_prio_cons_pos _ _ _ (by rw [hx]; simp)]
      simp only [removeFirst, if_pos hx]
    · simp only [removeFirst, if_neg hx]
      by_cases hxp : (x.priority == b.priority) = true
      · rw [filter_prio_cons_pos _ _ _ hxp, filter_prio_cons_pos _ _ _ hxp]
        simp only [removeFirst, if_neg hx]
        rw [ih]
      · rw [filter_prio_cons_neg _ _ _ hxp, filter_prio_cons_neg _ _ _ hxp, ih]

/-- After removing a task from a storage whose ids are distinct, the removed
task's id is no longer present. -/
lemma removeFirst_id_not_mem (b : QTask) (s : List QTask)
    (hids : (s.map QTask.id).Nodup) (hb : b ∈ s) :
    b.id ∉ (removeFirst b s).map QTask.id := by
  induction s with
  | nil => cases hb
  | cons x xs ih =>
    simp only [List.map_cons, List.nodup_cons] at hids
    obtain ⟨hx, hxs⟩ := hids
    by_cases hxb : x = b
    · simp only [removeFirst, if_pos hxb]
      rw [← hxb]
      exact hx
    · have hbxs : b ∈ xs := List.mem_of_ne_of_mem (fun h => hxb h.symm) hb
      simp only [removeFirst, if_neg hxb, List.map_cons, List.mem_cons]
      rintro (h | h)
      · exact hx (h ▸ (List.mem_map.mpr ⟨b, hbxs, rfl⟩))
      · exact ih hxs hbxs h

/-! Association lists with integer keys model the Python dictionaries.
Python dictionaries preserve key insertion order (3.7 and later), so a
dictionary is embedded as the list of its key-value entries in insertion
order, with pairwise distinct keys for every state the program can build. -/

section Assoc

variable {B : Type} {C : Type}

/-- The keys of a dictionary, in insertion order. -/
def aKeys (D : List (Int × B)) : List Int := D.map Prod.fst

/-- The value stored under a key: the first entry with that key. -/
def aFind : List (Int × B) → Int → Option B
  | [], _ => none
  | e :: rest, p => if e.1 = p then some e.2 else aFind rest p

/-- Replace the value stored under an existing key, keeping its position;
states without the key are returned unchanged. -/
def aSet (p : Int) (nb : B) : List (Int × B) → List (Int × B)
  | [] => []
  | e :: rest => if e.1 = p then (e.1, nb) :: rest else e :: aSet p nb rest

/-- Model of `d[k] = v`: replace in place if the key exists, append a new
entry otherwise. -/
def aAssign (k : Int) (v : B) : List (Int × B) → List (Int × B)
  | [] => [(k, v)]
  | e :: rest => if e.1 = k then (e.1, v) :: rest else e :: aAssign k v rest

/-- Model of `del d[k]`: drop the entry with the given key. -/
def aErase (k : Int) : List (Int × B) → List (Int × B)
  | [] => []
  | e :: rest => if e.1 = k then rest else e :: aErase k rest

/-- Outer loop of the bucketed `get_task` methods: try the keys in the given
order and return the first hit. -/
def scanKeys (f : Int → Option C) : List Int → Option C
  | [] => none
  | p :: ps =>
    match f p with
    | some x => some x
    | none => scanKeys f ps

lemma aKeys_nil : aKeys ([] : List (Int × B)) = [] := rfl

lemma aKeys_cons (e : Int × B) (D : List (Int × B)) :
    aKeys (e :: D) = e.1 :: aKeys D := rfl

lemma aFind_eq_none_of_not_mem (D : List (Int × B)) (p : Int) (h : p ∉ aKeys D) :
    aFind D p = none := by
  induction D with
  | nil => rfl
  | cons e rest ih =>
    rw [aKeys_cons, List.mem_cons] at h
    push_neg at h
    simp only [aFind]
    rw [if_neg (fun hh => h.1 hh.symm)]
    exact ih h.2

lemma aFind_mem (D : List (Int × B)) (p : Int) (b : B) (h : aFind D p = some b) :
    (p, b) ∈ D := by
  induction D with
  | nil => cases h
  | cons e rest ih =>
    simp only [aFind] at h
    by_cases he : e.1 = p
    · rw [if_pos he] at h
      cases h
      have : e = (p, e.2) := by
        cases e; simp at he; rw [he]
      rw [← this]
      exact List.mem_cons_self _ _
    · rw [if_neg he] at h
      exact List.mem_cons_of_mem _ (ih h)

lemma mem_aKeys_of_find_ne_none (D : List (Int × B)) (p : Int)
    (h : aFind D p ≠ none) : p ∈ aKeys D := by
  by_contra hm
  exact h (aFind_eq_none_of_not_mem D p hm)

lemma aKeys_aSet (p : Int) (nb : B) (D : List (Int × B)) :
    aKeys (aSet p nb D) = aKeys D := by
  induction D with
  | nil => rfl
  | cons e rest ih =>
    simp only [aSet]
    by_cases he : e.1 = p
    · rw [if_pos he, aKeys_cons, aKeys_cons]
    · rw [if_neg he, aKeys_cons, aKeys_cons, ih]

lemma aFind_aSet_self (p : Int) (nb : B) (D : List (Int × B)) (h : p ∈ aKeys D) :
    aFind (aSet p nb D) p = some nb := by
  induction D with
  | nil => cases h
  | cons e rest ih =>
    simp only [aSet]
    by_cases he : e.1 = p
    · rw [if_pos he]
      simp only [aFind]
      rw [if_pos he]
    · rw [if_neg he]
      simp only [aFind]
      rw [if_neg he]
      apply ih
      rw [aKeys_cons, List.mem_cons] at h
      rcases h with h | h
      · exact absurd h.symm he
      · exact h

lemma aFind_aSet_ne (p q : Int) (nb : B) (D : List (Int × B)) (h : q ≠ p) :
    aFind (aSet p nb D) q = aFind D q := by
  induction D with
  | nil => rfl
  | cons e rest ih =>
    simp only [aSet]
    by_cases he : e.1 = p
    · rw [if_pos he]
      have hq : ¬e.1 = q := fun hh => h (hh.symm.trans he)
      simp only [aFind]
      rw [if_neg hq, if_neg hq]
    · rw [if_neg he]
      simp only [aFind]
      by_cases hq : e.1 = q
      · rw [if_pos hq, if_pos hq]
      · rw [if_neg hq, if_neg hq, ih]

lemma aAssign_of_not_mem (k : Int) (v : B) (D : List (Int × B))
    (h : k ∉ aKeys D) : aAssign k v D = D ++ [(k, v)] := by
  induction D with
  | nil => rfl
  | cons e rest ih =>
    rw [aKeys_cons, List.mem_cons] at h
    push_neg at h
    simp only [aAssign]
    rw [if_neg (fun hh => h.1 hh.symm), ih h.2]
    rfl

lemma aKeys_aAssign_of_mem (k : Int) (v : B) (D : List (Int × B))
    (h : k ∈ aKeys D) : aKeys (aAssign k v D) = aKeys D := by
  induction D with
  | nil => cases h
  | cons e rest ih =>
    simp only [aAssign]
    by_cases he : e.1 = k
    · rw [if_pos he, aKeys_cons, aKeys_cons]
    · rw [if_neg he, aKeys_cons, aKeys_cons, ih]
      rw [aKeys_cons, List.mem_cons] at h
      rcases h with h | h
      · exact absurd h.symm he
      · exact h

lemma aFind_aAssign_self (k : Int) (v : B) (D : List (Int × B)) :
    aFind (aAssign k v D) k = some v := by
  induction D with
  | nil => simp [aAssign, aFind]
  | cons e rest ih =>
    simp only [aAssign]
    by_cases he : e.1 = k
    · rw [if_pos he]
      simp only [aFind]
      rw [if_pos he]
    · rw [if_neg he]
      simp only [aFind]
      rw [if_neg he]
      exact ih

/-! Lemmas about `scanKeys`. -/

lemma scanKeys_eq_none (f : Int → Option C) (ks : List Int)
    (h : ∀ p ∈ ks, f p = none) : scanKeys f ks = none := by
  induction ks with
  | nil => rfl
  | cons p ps ih =>
    simp only [scanKeys]
    rw [h p (List.mem_cons_self _ _)]
    exact ih (fun q hq => h q (List.mem_cons_of_mem _ hq))

lemma scanKeys_mem (f : Int → Option C) (ks : List Int) (x : C)
    (h : scanKeys f ks = some x) : ∃ p ∈ ks, f p = some x := by
  induction ks with
  | nil => cases h
  | cons p ps ih =>
    simp only [scanKeys] at h
    cases hp : f p with
    | some y =>
      rw [hp] at h
      cases h
      exact ⟨p, List.mem_cons_self _ _, hp⟩
    | none =>
      rw [hp] at h
      obtain ⟨q, hq, hfq⟩ := ih h
      exact ⟨q, List.mem_cons_of_mem _ hq, hfq⟩

lemma scanKeys_hit (f : Int → Option C) (ks : List Int) (q : Int) (x : C)
    (hks : List.Pairwise (fun a b : Int => a < b) ks) (hmem : q ∈ ks)
    (hlow : ∀ p ∈ ks, p < q → f p = none) (hq : f q = some x) :
    scanKeys f ks = some x := by
  induction ks with
  | nil => cases hmem
  | cons p ps ih =>
    rw [List.pairwise_cons] at hks
    simp only [scanKeys]
    by_cases hpq : p = q
    · subst hpq
      rw [hq]
    · have hqps : q ∈ ps := by
        rcases List.mem_cons.mp hmem with rfl | h
        · exact absurd rfl hpq
        · exact h
      have hplt : p < q := hks.1 q hqps
      rw [hlow p (List.mem_cons_self _ _) hplt]
      exact ih hks.2 hqps (fun r hr hrlt => hlow r (List.mem_cons_of_mem _ hr) hrlt)

lemma scanKeys_some_char (f : Int → Option C) (ks : List Int) (x : C)
    (hks : List.Pairwise (fun a b : Int => a < b) ks)
    (h : scanKeys f ks = some x) :
    ∃ q ∈ ks, f q = some x ∧ ∀ p ∈ ks, p < q → f p = none := by
  induction ks with
  | nil => cases h
  | cons p ps ih =>
    rw [List.pairwise_cons] at hks
    simp only [scanKeys] at h
    cases hp : f p with
    | some y =>
      rw [hp] at h
      cases h
      refine ⟨p, List.mem_cons_self _ _, hp, ?_⟩
      intro r hr hrlt
      rcases List.mem_cons.mp hr with rfl | hr
      · exact absurd hrlt (lt_irrefl _)
      · exact absurd hrlt (not_lt.mpr (le_of_lt (hks.1 r hr)))
    | none =>
      rw [hp] at h
      obtain ⟨q, hq, hfq, hlow⟩ := ih hks.2 h
      refine ⟨q, List.mem_cons_of_mem _ hq, hfq, ?_⟩
      intro r hr hrlt
      rcases List.mem_cons.mp hr with rfl | hr
      · exact hp
      · exact hlow r hr hrlt

/-- Decomposition of the concatenated buckets around the bucket of an
existing key, before and after replacing that bucket. -/
lemma aSet_join (D : List (Int × List C)) (p : Int) (nb : List C)
    (hp : p ∈ aKeys D) :
    ∃ J1 J2, (D.map Prod.snd).flatten = J1 ++ (aFind D p).getD [] ++ J2 ∧
      ((aSet p nb D).map Prod.snd).flatten = J1 ++ nb ++ J2 := by
  induction D with
  | nil => cases hp
  | cons e rest ih =>
    by_cases he : e.1 = p
    · refine ⟨[], (rest.map Prod.snd).flatten, ?_, ?_⟩
      · simp [aFind, he]
      · simp [aSet, he]
    · rw [aKeys_cons, List.mem_cons] at hp
      rcases hp with hp | hp
      · exact absurd hp.symm he
      · obtain ⟨J1, J2, h1, h2⟩ := ih hp
        refine ⟨e.2 ++ J1, J2, ?_, ?_⟩
        · simp only [List.map_cons, List.flatten_cons, aFind]
          rw [if_neg he, h1]
          simp [List.append_assoc]
        · simp only [aSet]
          rw [if_neg he]
          simp only [List.map_cons, List.flatten_cons]
          rw [h2]
          simp [List.append_assoc]

end Assoc

/-! The dict-of-lists strategy. -/

/-- State of `TaskQueue_dict_of_lists`: a dictionary from priority key to the
list of stored tasks of that priority, in insertion order. -/
abbrev DoLState := List (Int × List QTask)

/-- The bucket of a priority: the stored list, or the defaultdict default. -/
def dolLookup (D : DoLState) (p : Int) : List QTask := (aFind D p).getD []

/-- Model of `TaskQueue_dict_of_lists.add_task`:
`storage[new_task.priority].append(new_task)` on a defaultdict of lists. -/
def TaskQueue_dict_of_lists.add_task (new_task : QTask) : DoLState → DoLState
  | [] => [(new_task.priority, [new_task])]
  | e :: rest =>
    if e.1 = new_task.priority then (e.1, e.2 ++ [new_task]) :: rest
    else e :: TaskQueue_dict_of_lists.add_task new_task rest

/-- Model of Python's `sorted` on the key list: the keys of a dictionary are
pairwise distinct, and any correct sort of a duplicate-free integer list
yields the unique ascending enumeration, so insertion sort computes exactly
`sorted(storage.keys())`. -/
def sortedKeys (ks : List Int) : List Int :=
  List.insertionSort (fun a b => a ≤ b) ks

/-- Model of `TaskQueue_dict_of_lists.get_task`: loop over the priorities in
ascending order; inside a bucket, take the first fitting task, remove it from
its bucket (`list.remove`, first occurrence by value) and return it. -/
def TaskQueue_dict_of_lists.get_task (available_resources : Resources) (D : DoLState) :
    Option QTask × DoLState :=
  match scanKeys
      (fun p => (findFit available_resources (dolLookup D p)).map (fun t => (p, t)))
      (sortedKeys (aKeys D)) with
  | none => (none, D)
  | some (p, t) => (some t, aSet p (removeFirst t (dolLookup D p)) D)

/-- All tasks resident in a dict-of-lists state. -/
def residentsDoL (D : DoLState) : List QTask := (D.map Prod.snd).flatten

lemma dolLookup_cons (e : Int × List QTask) (D : DoLState) (p : Int) :
    dolLookup (e :: D) p = if e.1 = p then e.2 else dolLookup D p := by
  by_cases he : e.1 = p
  · simp [dolLookup, aFind, he]
  · simp [dolLookup, aFind, he]

lemma dolLookup_aSet_self (p : Int) (nb : List QTask) (D : DoLState)
    (h : p ∈ aKeys D) : dolLookup (aSet p nb D) p = nb := by
  rw [dolLookup, aFind_aSet_self p nb D h]
  rfl

lemma dolLookup_aSet_ne (p q : Int) (nb : List QTask) (D : DoLState)
    (h : q ≠ p) : dolLookup (aSet p nb D) q = dolLookup D q := by
  rw [dolLookup, aFind_aSet_ne p q nb D h]
  rfl

lemma dolLookup_subset (D : DoLState) (p : Int) :
    ∀ t ∈ dolLookup D p, t ∈ residentsDoL D := by
  induction D with
  | nil => intro t ht; cases ht
  | cons e rest ih =>
    intro t ht
    rw [dolLookup_cons] at ht
    simp only [residentsDoL, List.map_cons, List.flatten_cons, List.mem_append]
    by_cases he : e.1 = p
    · rw [if_pos he] at ht
      exact Or.inl ht
    · rw [if_neg he] at ht
      exact Or.inr (ih t ht)

/-! Sorted key lists. -/

lemma sortedKeys_perm (ks : List Int) : (sortedKeys ks).Perm ks :=
  List.perm_insertionSort _ ks

lemma mem_sortedKeys (ks : List Int) (p : Int) : p ∈ sortedKeys ks ↔ p ∈ ks :=
  (sortedKeys_perm ks).mem_iff

lemma sortedKeys_pairwise_lt (ks : List Int) (h : ks.Nodup) :
    List.Pairwise (fun a b : Int => a < b) (sortedKeys ks) := by
  have hs : List.Sorted (fun a b : Int => a ≤ b) (sortedKeys ks) :=
    List.sorted_insertionSort _ ks
  have hn : (sortedKeys ks).Nodup := (sortedKeys_perm ks).symm.nodup h
  exact (hs.and hn).imp (fun hab => lt_of_le_of_ne hab.1 hab.2)

/-! Coupling between the flat-list storage and the dict-of-lists state. -/

/-- Coupling invariant: every priority's bucket holds exactly the tasks of
that priority from the flat storage, in submission order, and the key list is
duplicate-free (as for any Python dictionary). -/
def InvL (s : List QTask) (D : DoLState) : Prop :=
  (aKeys D).Nodup ∧ ∀ p, dolLookup D p = s.filter (fun t => t.priority == p)

lemma InvL_nil : InvL [] [] := ⟨List.nodup_nil, fun _ => rfl⟩

lemma dol_add_lookup (t : QTask) (D : DoLState) (p : Int) :
    dolLookup (TaskQueue_dict_of_lists.add_task t D) p =
      if p = t.priority then dolLookup D p ++ [t] else dolLookup D p := by
  induction D with
  | nil =>
    by_cases hp : p = t.priority
    · subst hp
      simp [TaskQueue_dict_of_lists.add_task, dolLookup, aFind]
    · rw [if_neg hp]
      simp only [TaskQueue_dict_of_lists.add_task]
      rw [dolLookup_cons, if_neg (fun he => hp he.symm)]
  | cons e rest ih =>
    simp only [TaskQueue_dict_of_lists.add_task]
    by_cases he : e.1 = t.priority
    · rw [if_pos he, dolLookup_cons, dolLookup_cons]
      by_cases hp : p = t.priority
      · rw [if_pos hp, if_pos (he.trans hp.symm), if_pos (he.trans hp.symm)]
      · rw [if_neg hp, if_neg (fun hh : e.1 = p => hp (hh.symm.trans he)),
            if_neg (fun hh : e.1 = p => hp (hh.symm.trans he))]
    · rw [if_neg he, dolLookup_cons, dolLookup_cons]
      by_cases hq : e.1 = p
      · rw [if_pos hq, if_pos hq]
        rw [if_neg (fun hp : p = t.priority => he (hq.trans hp))]
      · rw [if_neg hq, if_neg hq, ih]

lemma dol_add_keys (t : QTask) (D : DoLState) :
    aKeys (TaskQueue_dict_of_lists.add_task t D) =
      if t.priority ∈ aKeys D then aKeys D else aKeys D ++ [t.priority] := by
  induction D with
  | nil => simp [TaskQueue_dict_of_lists.add_task, aKeys]
  | cons e rest ih =>
    simp only [TaskQueue_dict_of_lists.add_task]
    by_cases he : e.1 = t.priority
    · rw [if_pos he, aKeys_cons, aKeys_cons]
      have : t.priority ∈ e.1 :: aKeys rest := by
        rw [he.symm]
        exact List.mem_cons_self _ _
      rw [if_pos this]
    · rw [if_neg he, aKeys_cons, aKeys_cons, ih]
      by_cases hm : t.priority ∈ aKeys rest
      · rw [if_pos hm, if_pos (List.mem_cons_of_mem _ hm)]
      · rw [if_neg hm]
        have : t.priority ∉ e.1 :: aKeys rest := by
          rw [List.mem_cons]
          rintro (h | h)
          · exact he h.symm
          · exact hm h
        rw [if_neg this]
        rfl

lemma dol_add_keys_nodup (t : QTask) (D : DoLState) (h : (aKeys D).Nodup) :
    (aKeys (TaskQueue_dict_of_lists.add_task t D)).Nodup := by
  rw [dol_add_keys]
  by_cases hm : t.priority ∈ aKeys D
  · rw [if_pos hm]; exact h
  · rw [if_neg hm]
    simp [List.nodup_append, h, hm]

/-- Submission preserves the coupling invariant. -/
lemma InvL_add (s : List QTask) (D : DoLState) (t : QTask) (h : InvL s D) :
    InvL (s ++ [t]) (TaskQueue_dict_of_lists.add_task t D) := by
  obtain ⟨hk, hbuckets⟩ := h
  refine ⟨dol_add_keys_nodup t D hk, ?_⟩
  intro p
  rw [dol_add_lookup, List.filter_append]
  by_cases hp : p = t.priority
  · rw [if_pos hp, hbuckets p]
    subst hp
    simp [List.filter_cons]
  · rw [if_neg hp, hbuckets p]
    have : (t.priority == p) = false := by
      simp only [beq_eq_false_iff_ne, ne_eq]
      exact fun he => hp he.symm
    simp [List.filter_cons, this]

/-- The bucketed scan returns exactly the record `pick` selects, tagged with
its priority. -/
lemma dol_scan_eq (R : Resources) (s : List QTask) (D : DoLState) (h : InvL s D) :
    scanKeys (fun p => (findFit R (dolLookup D p)).map (fun t => (p, t)))
        (sortedKeys (aKeys D)) =
      (pick R s).map (fun b => (b.priority, b)) := by
  obtain ⟨hk, hbuckets⟩ := h
  cases hp : pick R s with
  | none =>
    show _ = Option.map _ none
    rw [show Option.map (fun b : QTask => (b.priority, b)) none = none from rfl]
    apply scanKeys_eq_none
    intro p _
    rw [hbuckets p]
    rw [pick_eq_none_iff] at hp
    have hnone : findFit R (s.filter (fun t => t.priority == p)) = none := by
      rw [findFit_eq_none_iff]
      intro u hu
      exact hp u (List.mem_filter.mp hu).1
    rw [hnone]
    rfl
  | some b =>
    show _ = Option.map _ (some b)
    rw [show Option.map (fun b : QTask => (b.priority, b)) (some b) =
        some (b.priority, b) from rfl]
    apply scanKeys_hit _ _ b.priority
    · exact sortedKeys_pairwise_lt _ hk
    · rw [mem_sortedKeys]
      apply mem_aKeys_of_find_ne_none
      intro hnone
      have hl : dolLookup D b.priority = [] := by rw [dolLookup, hnone]; rfl
      rw [hbuckets b.priority] at hl
      have hbmem : b ∈ s.filter (fun t => t.priority == b.priority) :=
        List.mem_filter.mpr ⟨pick_mem R s b hp, by simp⟩
      rw [hl] at hbmem
      cases hbmem
    · intro p _ hplt
      rw [hbuckets p, pick_filter_lt_none R s b p hp hplt]
      rfl
    · rw [hbuckets b.priority, pick_findFit_filter R s b hp]
      rfl

/-- One `get_task` call on coupled states: same returned record, and the
resulting states are coupled again. -/
lemma dol_get_sim (R : Resources) (s : List QTask) (D : DoLState) (h : InvL s D) :
    (TaskQueue_dict_of_lists.get_task R D).1 = pick R s ∧
      InvL ((TaskQueue_list.get_task R s).2) ((TaskQueue_dict_of_lists.get_task R D).2) := by
  have hscan := dol_scan_eq R s D h
  obtain ⟨hk, hbuckets⟩ := h
  cases hp : pick R s with
  | none =>
    rw [hp] at hscan
    have hs2 : scanKeys
        (fun p => (findFit R (dolLookup D p)).map (fun t => (p, t)))
        (sortedKeys (aKeys D)) = none := by rw [hscan]; rfl
    unfold TaskQueue_dict_of_lists.get_task
    rw [hs2]
    refine ⟨rfl, ?_⟩
    rw [TaskQueue_list.get_task_snd_none R s hp]
    exact ⟨hk, hbuckets⟩
  | some b =>
    rw [hp] at hscan
    have hs2 : scanKeys
        (fun p => (findFit R (dolLookup D p)).map (fun t => (p, t)))
        (sortedKeys (aKeys D)) = some (b.priority, b) := by rw [hscan]; rfl
    have hmem : b.priority ∈ aKeys D := by
      apply mem_aKeys_of_find_ne_none
      intro hnone
      have hl : dolLookup D b.priority = [] := by rw [dolLookup, hnone]; rfl
      rw [hbuckets b.priority] at hl
      have hbmem : b ∈ s.filter (fun t => t.priority == b.priority) :=
        List.mem_filter.mpr ⟨pick_mem R s b hp, by simp⟩
      rw [hl] at hbmem
      cases hbmem
    unfold TaskQueue_dict_of_lists.get_task
    rw [hs2]
    refine ⟨rfl, ?_⟩
    rw [TaskQueue_list.get_task_snd_some R s b hp]
    refine ⟨by rw [aKeys_aSet]; exact hk, ?_⟩
    intro p
    by_cases hpe : p = b.priority
    · subst hpe
      rw [dolLookup_aSet_self _ _ _ hmem, hbuckets b.priority, filter_removeFirst_eq]
    · rw [dolLookup_aSet_ne _ _ _ _ hpe,
          filter_removeFirst_ne b s p (fun he => hpe he.symm)]
      exact hbuckets p

/-! The dict-of-dicts strategy. -/

/-- A bucket of `TaskQueue_dict_of_dicts`: a dictionary from task id to task,
in insertion order. -/
abbrev Bucket := List (Int × QTask)

/-- State of `TaskQueue_dict_of_dicts`: a dictionary from priority key to a
bucket keyed by task id. -/
abbrev DoDState := List (Int × Bucket)

/-- The bucket of a priority, or the defaultdict default. -/
def dodLookup (E : DoDState) (p : Int) : Bucket := (aFind E p).getD []

/-- Model of `TaskQueue_dict_of_dicts.add_task`:
`storage[new_task.priority][new_task.id] = new_task` on a defaultdict of dicts. -/
def TaskQueue_dict_of_dicts.add_task (new_task : QTask) : DoDState → DoDState
  | [] => [(new_task.priority, [(new_task.id, new_task)])]
  | e :: rest =>
    if e.1 = new_task.priority then (e.1, aAssign new_task.id new_task e.2) :: rest
    else e :: TaskQueue_dict_of_dicts.add_task new_task rest

/-- First fitting entry of a bucket, with its key: the loop over `.items()`. -/
def findFitEntry (R : Resources) : Bucket → Option (Int × QTask)
  | [] => none
  | e :: rest => if fits e.2 R then some e else findFitEntry R rest

/-- Model of `TaskQueue_dict_of_dicts.get_task`: loop over the priorities in
ascending order and over a bucket's entries in insertion order; on the first
fitting entry, delete it from its bucket by its key and return its task. -/
def TaskQueue_dict_of_dicts.get_task (available_resources : Resources) (E : DoDState) :
    Option QTask × DoDState :=
  match scanKeys
      (fun p => (findFitEntry available_resources (dodLookup E p)).map (fun e => (p, e)))
      (sortedKeys (aKeys E)) with
  | none => (none, E)
  | some (p, e) => (some e.2, aSet p (aErase e.1 (dodLookup E p)) E)

/-- All tasks resident in a dict-of-dicts state. -/
def residentsDoD (E : DoDState) : List QTask :=
  ((E.map Prod.snd).flatten).map Prod.snd

lemma dodLookup_cons (e : Int × Bucket) (E : DoDState) (p : Int) :
    dodLookup (e :: E) p = if e.1 = p then e.2 else dodLookup E p := by
  by_cases he : e.1 = p
  · simp [dodLookup, aFind, he]
  · simp [dodLookup, aFind, he]

lemma dodLookup_aSet_self (p : Int) (nb : Bucket) (E : DoDState)
    (h : p ∈ aKeys E) : dodLookup (aSet p nb E) p = nb := by
  rw [dodLookup, aFind_aSet_self p nb E h]
  rfl

lemma dodLookup_aSet_ne (p q : Int) (nb : Bucket) (E : DoDState)
    (h : q ≠ p) : dodLookup (aSet p nb E) q = dodLookup E q := by
  rw [dodLookup, aFind_aSet_ne p q nb E h]
  rfl

lemma dodLookup_subset (E : DoDState) (p : Int) :
    ∀ e ∈ dodLookup E p, e.2 ∈ residentsDoD E := by
  induction E with
  | nil => intro e he; cases he
  | cons x rest ih =>
    intro e he
    rw [dodLookup_cons] at he
    simp only [residentsDoD, List.map_cons, List.flatten_cons, List.map_append,
      List.mem_append]
    by_cases hx : x.1 = p
    · rw [if_pos hx] at he
      exact Or.inl (List.mem_map.mpr ⟨e, he, rfl⟩)
    · rw [if_neg hx] at he
      exact Or.inr (ih e he)

lemma findFitEntry_cons_pos (R : Resources) (e : Int × QTask) (rest : Bucket)
    (hf : fits e.2 R = true) : findFitEntry R (e :: rest) = some e := by
  simp [findFitEntry, hf]

lemma findFitEntry_cons_neg (R : Resources) (e : Int × QTask) (rest : Bucket)
    (hf : fits e.2 R = false) : findFitEntry R (e :: rest) = findFitEntry R rest := by
  simp [findFitEntry, hf]

/-- On a bucket whose entries are keyed by their task's id, the entry search
is the task search on the stored tasks. -/
lemma findFitEntry_keyed (R : Resources) (B : Bucket)
    (hkeyed : ∀ e ∈ B, e.1 = e.2.id) :
    findFitEntry R B = (findFit R (B.map Prod.snd)).map (fun t => (t.id, t)) := by
  induction B with
  | nil => rfl
  | cons e rest ih =>
    have hek := hkeyed e (List.mem_cons_self _ _)
    cases hf : fits e.2 R with
    | true =>
      rw [findFitEntry_cons_pos R e rest hf, List.map_cons,
        findFit_cons_pos R e.2 _ hf]
      cases e with
      | mk i u =>
        simp only at hek
        rw [hek]
        rfl
    | false =>
      rw [findFitEntry_cons_neg R e rest hf, List.map_cons,
        findFit_cons_neg R e.2 _ hf]
      exact ih (fun x hx => hkeyed x (List.mem_cons_of_mem _ hx))

lemma findFitEntry_eq_none_iff (R : Resources) (B : Bucket) :
    findFitEntry R B = none ↔ ∀ e ∈ B, fits e.2 R = false := by
  induction B with
  | nil => simp [findFitEntry]
  | cons e rest ih =>
    cases hf : fits e.2 R with
    | true =>
      rw [findFitEntry_cons_pos R e rest hf]
      simp only [false_iff, reduceCtorEq]
      intro hall
      rw [hall e (List.mem_cons_self _ _)] at hf
      cases hf
    | false =>
      rw [findFitEntry_cons_neg R e rest hf, ih]
      constructor
      · intro h u hu
        rcases List.mem_cons.mp hu with rfl | hu
        · exact hf
        · exact h u hu
      · intro h u hu
        exact h u (List.mem_cons_of_mem _ hu)

lemma aErase_sublist {B : Type} (k : Int) (D : List (Int × B)) :
    (aErase k D).Sublist D := by
  induction D with
  | nil => simp [aErase]
  | cons e rest ih =>
    by_cases he : e.1 = k
    · simp only [aErase, if_pos he]
      exact (List.sublist_cons_self e rest)
    · simp only [aErase, if_neg he]
      exact List.Sublist.cons₂ e ih

/-- Deleting the entry of a task by its key removes exactly that task from the
stored-task list, provided entries are keyed by id and ids are distinct. -/
lemma aErase_map_snd (B : Bucket) (t : QTask)
    (hkeyed : ∀ e ∈ B, e.1 = e.2.id)
    (hids : ((B.map Prod.snd).map QTask.id).Nodup)
    (ht : t ∈ B.map Prod.snd) :
    (aErase t.id B).map Prod.snd = removeFirst t (B.map Prod.snd) := by
  induction B with
  | nil => cases ht
  | cons e rest ih =>
    have hek := hkeyed e (List.mem_cons_self _ _)
    simp only [List.map_cons, List.nodup_cons] at hids
    obtain ⟨hid1, hid2⟩ := hids
    by_cases het : e.2 = t
    · have hkey : e.1 = t.id := by rw [hek, het]
      simp only [aErase, if_pos hkey, List.map_cons, removeFirst, if_pos het]
    · have htrest : t ∈ rest.map Prod.snd := by
        rw [List.map_cons] at ht
        exact List.mem_of_ne_of_mem (fun h => het h.symm) ht
      have hne : ¬(e.1 = t.id) := by
        rw [hek]
        intro hh
        exact hid1 (hh ▸ List.mem_map.mpr ⟨t, htrest, rfl⟩)
      simp only [aErase, if_neg hne, List.map_cons, removeFirst, if_neg het]
      rw [ih (fun x hx => hkeyed x (List.mem_cons_of_mem _ hx)) hid2 htrest]

/-! Coupling between the flat-list storage and the dict-of-dicts state. -/

/-- Coupling invariant: every priority's bucket stores exactly the tasks of
that priority in submission order, each entry keyed by its task's id, and the
outer key list is duplicate-free. -/
def InvD (s : List QTask) (E : DoDState) : Prop :=
  (aKeys E).Nodup ∧
    ∀ p, (dodLookup E p).map Prod.snd = s.filter (fun t => t.priority == p) ∧
      ∀ e ∈ dodLookup E p, e.1 = e.2.id

lemma InvD_nil : InvD [] [] :=
  ⟨List.nodup_nil, fun _ => ⟨rfl, fun _ he => absurd he (List.not_mem_nil _)⟩⟩

lemma dod_add_lookup (t : QTask) (E : DoDState) (p : Int) :
    dodLookup (TaskQueue_dict_of_dicts.add_task t E) p =
      if p = t.priority then aAssign t.id t (dodLookup E p) else dodLookup E p := by
  induction E with
  | nil =>
    by_cases hp : p = t.priority
    · subst hp
      simp [TaskQueue_dict_of_dicts.add_task, dodLookup, aFind, aAssign]
    · rw [if_neg hp]
      simp only [TaskQueue_dict_of_dicts.add_task]
      rw [dodLookup_cons, if_neg (fun he => hp he.symm)]
  | cons e rest ih =>
    simp only [TaskQueue_dict_of_dicts.add_task]
    by_cases he : e.1 = t.priority
    · rw [if_pos he, dodLookup_cons, dodLookup_cons]
      by_cases hp : p = t.priority
      · rw [if_pos hp, if_pos (he.trans hp.symm), if_pos (he.trans hp.symm)]
      · rw [if_neg hp, if_neg (fun hh : e.1 = p => hp (hh.symm.trans he)),
            if_neg (fun hh : e.1 = p => hp (hh.symm.trans he))]
    · rw [if_neg he, dodLookup_cons, dodLookup_cons]
      by_cases hq : e.1 = p
      · rw [if_pos hq, if_pos hq]
        rw [if_neg (fun hp : p = t.priority => he (hq.trans hp))]
      · rw [if_neg hq, if_neg hq, ih]

lemma dod_add_keys (t : QTask) (E : DoDState) :
    aKeys (TaskQueue_dict_of_dicts.add_task t E) =
      if t.priority ∈ aKeys E then aKeys E else aKeys E ++ [t.priority] := by
  induction E with
  | nil => simp [TaskQueue_dict_of_dicts.add_task, aKeys]
  | cons e rest ih =>
    simp only [TaskQueue_dict_of_dicts.add_task]
    by_cases he : e.1 = t.priority
    · rw [if_pos he, aKeys_cons, aKeys_cons]
      have : t.priority ∈ e.1 :: aKeys rest := by
        rw [he.symm]
        exact List.mem_cons_self _ _
      rw [if_pos this]
    · rw [if_neg he, aKeys_cons, aKeys_cons, ih]
      by_cases hm : t.priority ∈ aKeys rest
      · rw [if_pos hm, if_pos (List.mem_cons_of_mem _ hm)]
      · rw [if_neg hm]
        have : t.priority ∉ e.1 :: aKeys rest := by
          rw [List.mem_cons]
          rintro (h | h)
          · exact he h.symm
          · exact hm h
        rw [if_neg this]
        rfl

lemma dod_add_keys_nodup (t : QTask) (E : DoDState) (h : (aKeys E).Nodup) :
    (aKeys (TaskQueue_dict_of_dicts.add_task t E)).Nodup := by
  rw [dod_add_keys]
  by_cases hm : t.priority ∈ aKeys E
  · rw [if_pos hm]; exact h
  · rw [if_neg hm]
    simp [List.nodup_append, h, hm]

/-- Submission of a fresh id preserves the coupling invariant. -/
lemma InvD_add (s : List QTask) (E : DoDState) (t : QTask) (h : InvD s E)
    (hfresh : t.id ∉ s.map QTask.id) :
    InvD (s ++ [t]) (TaskQueue_dict_of_dicts.add_task t E) := by
  obtain ⟨hk, hbuckets⟩ := h
  refine ⟨dod_add_keys_nodup t E hk, ?_⟩
  intro p
  rw [dod_add_lookup]
  by_cases hp : p = t.priority
  · rw [if_pos hp]
    have hmap := (hbuckets p).1
    have hkeyed := (hbuckets p).2
    have hknotmem : t.id ∉ aKeys (dodLookup E p) := by
      intro hmem
      obtain ⟨e, he, hefst⟩ := List.mem_map.mp hmem
      have hkey := hkeyed e he
      have he2 : e.2 ∈ s.filter (fun u => u.priority == p) := by
        rw [← hmap]
        exact List.mem_map.mpr ⟨e, he, rfl⟩
      have hin : e.2.id ∈ s.map QTask.id :=
        List.mem_map.mpr ⟨e.2, (List.mem_filter.mp he2).1, rfl⟩
      rw [← hkey, hefst] at hin
      exact hfresh hin
    rw [aAssign_of_not_mem _ _ _ hknotmem]
    constructor
    · rw [List.map_append, hmap, List.filter_append]
      subst hp
      simp
    · intro e he
      rcases List.mem_append.mp he with he | he
      · exact hkeyed e he
      · rw [List.mem_singleton] at he
        rw [he]
  · rw [if_neg hp]
    constructor
    · rw [(hbuckets p).1, List.filter_append]
      have hne : ¬((t.priority == p) = true) := by
        simp only [beq_iff_eq]
        exact fun he => hp he.symm
      rw [filter_prio_cons_neg _ _ _ hne]
      simp
    · exact (hbuckets p).2

/-- The bucketed entry scan returns exactly the record `pick` selects,
tagged with its priority and its id. -/
lemma dod_scan_eq (R : Resources) (s : List QTask) (E : DoDState) (h : InvD s E) :
    scanKeys (fun p => (findFitEntry R (dodLookup E p)).map (fun e => (p, e)))
        (sortedKeys (aKeys E)) =
      (pick R s).map (fun b => (b.priority, (b.id, b))) := by
  obtain ⟨hk, hbuckets⟩ := h
  cases hp : pick R s with
  | none =>
    show _ = Option.map _ none
    rw [show Option.map (fun b : QTask => (b.priority, (b.id, b))) none = none from rfl]
    apply scanKeys_eq_none
    intro p _
    rw [findFitEntry_keyed R _ ((hbuckets p).2), (hbuckets p).1]
    rw [pick_eq_none_iff] at hp
    have hnone : findFit R (s.filter (fun t => t.priority == p)) = none := by
      rw [findFit_eq_none_iff]
      intro u hu
      exact hp u (List.mem_filter.mp hu).1
    rw [hnone]
    rfl
  | some b =>
    show _ = Option.map _ (some b)
    rw [show Option.map (fun b : QTask => (b.priority, (b.id, b))) (some b) =
        some (b.priority, (b.id, b)) from rfl]
    apply scanKeys_hit _ _ b.priority
    · exact sortedKeys_pairwise_lt _ hk
    · rw [mem_sortedKeys]
      apply mem_aKeys_of_find_ne_none
      intro hnone
      have hl : dodLookup E b.priority = [] := by rw [dodLookup, hnone]; rfl
      have hmap := (hbuckets b.priority).1
      rw [hl] at hmap
      have hbmem : b ∈ s.filter (fun t => t.priority == b.priority) :=
        List.mem_filter.mpr ⟨pick_mem R s b hp, by simp⟩
      rw [← hmap] at hbmem
      cases hbmem
    · intro p _ hplt
      rw [findFitEntry_keyed R _ ((hbuckets p).2), (hbuckets p).1,
        pick_filter_lt_none R s b p hp hplt]
      rfl
    · rw [findFitEntry_keyed R _ ((hbuckets b.priority).2), (hbuckets b.priority).1,
        pick_findFit_filter R s b hp]
      rfl

/-- One `get_task` call on coupled states: same returned record, and the
resulting states are coupled again. -/
lemma dod_get_sim (R : Resources) (s : List QTask) (E : DoDState) (h : InvD s E)
    (hids : (s.map QTask.id).Nodup) :
    (TaskQueue_dict_of_dicts.get_task R E).1 = pick R s ∧
      InvD ((TaskQueue_list.get_task R s).2) ((TaskQueue_dict_of_dicts.get_task R E).2) := by
  have hscan := dod_scan_eq R s E h
  obtain ⟨hk, hbuckets⟩ := h
  cases hp : pick R s with
  | none =>
    rw [hp] at hscan
    have hs2 : scanKeys
        (fun p => (findFitEntry R (dodLookup E p)).map (fun e => (p, e)))
        (sortedKeys (aKeys E)) = none := by rw [hscan]; rfl
    unfold TaskQueue_dict_of_dicts.get_task
    rw [hs2]
    refine ⟨rfl, ?_⟩
    rw [TaskQueue_list.get_task_snd_none R s hp]
    exact ⟨hk, hbuckets⟩
  | some b =>
    rw [hp] at hscan
    have hs2 : scanKeys
        (fun p => (findFitEntry R (dodLookup E p)).map (fun e => (p, e)))
        (sortedKeys (aKeys E)) = some (b.priority, (b.id, b)) := by rw [hscan]; rfl
    have hmem : b.priority ∈ aKeys E := by
      apply mem_aKeys_of_find_ne_none
      intro hnone
      have hl : dodLookup E b.priority = [] := by rw [dodLookup, hnone]; rfl
      have hmap := (hbuckets b.priority).1
      rw [hl] at hmap
      have hbmem : b ∈ s.filter (fun t => t.priority == b.priority) :=
        List.mem_filter.mpr ⟨pick_mem R s b hp, by simp⟩
      rw [← hmap] at hbmem
      cases hbmem
    have hbucketids : (((dodLookup E b.priority).map Prod.snd).map QTask.id).Nodup := by
      rw [(hbuckets b.priority).1]
      exact List.Nodup.sublist (List.Sublist.map _ (List.filter_sublist s)) hids
    have hbmem2 : b ∈ (dodLookup E b.priority).map Prod.snd := by
      rw [(hbuckets b.priority).1]
      exact List.mem_filter.mpr ⟨pick_mem R s b hp, by simp⟩
    unfold TaskQueue_dict_of_dicts.get_task
    rw [hs2]
    refine ⟨rfl, ?_⟩
    rw [TaskQueue_list.get_task_snd_some R s b hp]
    refine ⟨by rw [aKeys_aSet]; exact hk, ?_⟩
    intro p
    by_cases hpe : p = b.priority
    · subst hpe
      rw [dodLookup_aSet_self _ _ _ hmem]
      constructor
      · rw [aErase_map_snd _ b ((hbuckets b.priority).2) hbucketids hbmem2,
          (hbuckets b.priority).1, filter_removeFirst_eq]
      · intro e he
        exact (hbuckets b.priority).2 e (aErase_sublist b.id _ |>.mem he)
    · rw [dodLookup_aSet_ne _ _ _ _ hpe]
      constructor
      · rw [(hbuckets p).1,
          filter_removeFirst_ne b s p (fun he => hpe he.symm)]
      · exact (hbuckets p).2

/-! Operation sequences against a store. -/

/-- One call of the shared two-operation contract. -/
inductive Op where
  | add : QTask → Op
  | get : Resources → Op
deriving DecidableEq

/-- The identifiers of the submitted tasks of a call sequence, in order. -/
def addIds : List Op → List Int
  | [] => []
  | Op.add t :: ops => t.id :: addIds ops
  | Op.get _ :: ops => addIds ops

/-- Run a call sequence against the flat-list strategy from a given state,
collecting every withdrawal's result in order. -/
def runList : List Op → List QTask → List (Option QTask) × List QTask
  | [], s => ([], s)
  | Op.add t :: ops, s => runList ops (TaskQueue_list.add_task t s)
  | Op.get R :: ops, s =>
    let r := TaskQueue_list.get_task R s
    let rest := runList ops r.2
    (r.1 :: rest.1, rest.2)

/-- Run a call sequence against the dict-of-lists strategy. -/
def runDoL : List Op → DoLState → List (Option QTask) × DoLState
  | [], D => ([], D)
  | Op.add t :: ops, D => runDoL ops (TaskQueue_dict_of_lists.add_task t D)
  | Op.get R :: ops, D =>
    let r := TaskQueue_dict_of_lists.get_task R D
    let rest := runDoL ops r.2
    (r.1 :: rest.1, rest.2)

/-- Run a call sequence against the dict-of-dicts strategy. -/
def runDoD : List Op → DoDState → List (Option QTask) × DoDState
  | [], E => ([], E)
  | Op.add t :: ops, E => runDoD ops (TaskQueue_dict_of_dicts.add_task t E)
  | Op.get R :: ops, E =>
    let r := TaskQueue_dict_of_dicts.get_task R E
    let rest := runDoD ops r.2
    (r.1 :: rest.1, rest.2)

/-- The flat-list state shrinks (as a sublist) under one withdrawal. -/
lemma getL_snd_sublist (R : Resources) (s : List QTask) :
    ((TaskQueue_list.get_task R s).2).Sublist s := by
  cases hp : pick R s with
  | none =>
    rw [TaskQueue_list.get_task_snd_none R s hp]
  | some b =>
    rw [TaskQueue_list.get_task_snd_some R s b hp]
    exact removeFirst_sublist b s

/-- Trace simulation for the dict-of-lists strategy: from coupled states, the
same call sequence produces the same trace, and the final states are coupled.
No assumption on the submitted ids is needed. -/
lemma runDoL_sim (ops : List Op) : ∀ (s : List QTask) (D : DoLState), InvL s D →
    (runDoL ops D).1 = (runList ops s).1 ∧
      InvL (runList ops s).2 (runDoL ops D).2 := by
  induction ops with
  | nil => intro s D h; exact ⟨rfl, h⟩
  | cons op ops ih =>
    intro s D h
    cases op with
    | add t =>
      simp only [runList, runDoL]
      exact ih _ _ (InvL_add s D t h)
    | get R =>
      have hg := dol_get_sim R s D h
      obtain ⟨h1, h2⟩ := ih _ _ hg.2
      simp only [runList, runDoL]
      constructor
      · rw [h1, hg.1, TaskQueue_list.get_task_fst]
      · exact h2

/-- Trace simulation for the dict-of-dicts strategy: over any call sequence
whose submitted ids are globally fresh and duplicate-free, the same trace is
produced and the final states are coupled. -/
lemma runDoD_sim (ops : List Op) : ∀ (s : List QTask) (E : DoDState), InvD s E →
    (s.map QTask.id).Nodup → (addIds ops).Nodup →
    (∀ i ∈ addIds ops, i ∉ s.map QTask.id) →
    (runDoD ops E).1 = (runList ops s).1 ∧
      InvD (runList ops s).2 (runDoD ops E).2 := by
  induction ops with
  | nil => intro s E h _ _ _; exact ⟨rfl, h⟩
  | cons op ops ih =>
    intro s E h hids hnodup hfresh
    cases op with
    | add t =>
      simp only [addIds] at hnodup hfresh
      rw [List.nodup_cons] at hnodup
      have ht : t.id ∉ s.map QTask.id := hfresh t.id (List.mem_cons_self _ _)
      simp only [runList, runDoD]
      apply ih _ _ (InvD_add s E t h ht)
      · simp only [TaskQueue_list.add_task, List.map_append, List.map_cons,
          List.map_nil]
        simp [List.nodup_append, hids, ht]
      · exact hnodup.2
      · intro i hi
        simp only [TaskQueue_list.add_task, List.map_append, List.map_cons,
          List.map_nil, List.mem_append, List.mem_cons]
        rintro (hin | hin | hin)
        · exact hfresh i (List.mem_cons_of_mem _ hi) hin
        · rw [hin] at hi
          exact hnodup.1 hi
        · cases hin
    | get R =>
      simp only [addIds] at hnodup hfresh
      have hg := dod_get_sim R s E h hids
      have hsub := getL_snd_sublist R s
      have hids2 : (((TaskQueue_list.get_task R s).2).map QTask.id).Nodup :=
        List.Nodup.sublist (List.Sublist.map _ hsub) hids
      have hfresh2 : ∀ i ∈ addIds ops,
          i ∉ ((TaskQueue_list.get_task R s).2).map QTask.id := by
        intro i hi hmem
        obtain ⟨u, hu, hui⟩ := List.mem_map.mp hmem
        exact hfresh i hi (List.mem_map.mpr ⟨u, hsub.mem hu, hui⟩)
      obtain ⟨h1, h2⟩ := ih _ _ hg.2 hids2 hnodup hfresh2
      simp only [runList, runDoD]
      constructor
      · rw [h1, hg.1, TaskQueue_list.get_task_fst]
      · exact h2

/-! Stores built by submissions only (for the single-withdrawal claims). -/

/-- Fill a fresh flat-list store by a sequence of submissions. -/
def buildList (tasks : List QTask) : List QTask :=
  tasks.foldl (fun s t => TaskQueue_list.add_task t s) []

/-- Fill a fresh dict-of-lists store by a sequence of submissions. -/
def buildDoL (tasks : List QTask) : DoLState :=
  tasks.foldl (fun D t => TaskQueue_dict_of_lists.add_task t D) []

/-- Fill a fresh dict-of-dicts store by a sequence of submissions. -/
def buildDoD (tasks : List QTask) : DoDState :=
  tasks.foldl (fun E t => TaskQueue_dict_of_dicts.add_task t E) []

lemma foldl_add_list (tasks : List QTask) : ∀ s : List QTask,
    tasks.foldl (fun s t => TaskQueue_list.add_task t s) s = s ++ tasks := by
  induction tasks with
  | nil => intro s; simp
  | cons t ts ih =>
    intro s
    simp only [List.foldl_cons]
    rw [ih]
    simp [TaskQueue_list.add_task]

lemma buildList_eq (tasks : List QTask) : buildList tasks = tasks := by
  rw [buildList, foldl_add_list]
  rfl

lemma build_InvL (tasks : List QTask) : ∀ (s : List QTask) (D : DoLState),
    InvL s D →
    InvL (s ++ tasks) (tasks.foldl (fun D t => TaskQueue_dict_of_lists.add_task t D) D) := by
  induction tasks with
  | nil => intro s D h; simpa using h
  | cons t ts ih =>
    intro s D h
    simp only [List.foldl_cons]
    have := ih (s ++ [t]) _ (InvL_add s D t h)
    simpa [List.append_assoc] using this

lemma buildDoL_InvL (tasks : List QTask) : InvL tasks (buildDoL tasks) := by
  have := build_InvL tasks [] [] InvL_nil
  simpa [buildDoL] using this

lemma build_InvD (tasks : List QTask) : ∀ (s : List QTask) (E : DoDState),
    InvD s E → ((s ++ tasks).map QTask.id).Nodup →
    InvD (s ++ tasks) (tasks.foldl (fun E t => TaskQueue_dict_of_dicts.add_task t E) E) := by
  induction tasks with
  | nil => intro s E h _; simpa using h
  | cons t ts ih =>
    intro s E h hids
    simp only [List.foldl_cons]
    have hfresh : t.id ∉ s.map QTask.id := by
      intro hmem
      rw [List.map_append, List.map_cons] at hids
      have h2 := List.nodup_middle.mp hids
      rw [List.nodup_cons] at h2
      exact h2.1 (List.mem_append.mpr (Or.inl hmem))
    have := ih (s ++ [t]) _ (InvD_add s E t h hfresh)
      (by simpa [List.append_assoc] using hids)
    simpa [List.append_assoc] using this

lemma buildDoD_InvD (tasks : List QTask) (hids : (tasks.map QTask.id).Nodup) :
    InvD tasks (buildDoD tasks) := by
  have := build_InvD tasks [] [] InvD_nil (by simpa using hids)
  simpa [buildDoD] using this

/-! Exactly-once bookkeeping along a run of the flat-list strategy. -/

/-- The identifiers of the records returned by the withdrawals of a trace. -/
def returnedIds (tr : List (Option QTask)) : List Int :=
  (tr.filterMap (fun o => o)).map QTask.id

lemma returnedIds_nil : returnedIds [] = [] := rfl

lemma returnedIds_cons_none (tr : List (Option QTask)) :
    returnedIds (none :: tr) = returnedIds tr := by
  simp [returnedIds]

lemma returnedIds_cons_some (b : QTask) (tr : List (Option QTask)) :
    returnedIds (some b :: tr) = b.id :: returnedIds tr := by
  simp [returnedIds]

/-- Along any run of the flat-list strategy whose future submissions carry
fresh, duplicate-free ids: the returned ids are duplicate-free and stem from
submissions or initial residents, and the same holds of the final residents. -/
lemma runList_exactly_once (ops : List Op) : ∀ s : List QTask,
    (s.map QTask.id).Nodup → (addIds ops).Nodup →
    (∀ i ∈ addIds ops, i ∉ s.map QTask.id) →
    (returnedIds (runList ops s).1).Nodup ∧
      (∀ i ∈ returnedIds (runList ops s).1, i ∈ addIds ops ∨ i ∈ s.map QTask.id) ∧
      (∀ i ∈ ((runList ops s).2).map QTask.id, i ∈ addIds ops ∨ i ∈ s.map QTask.id) ∧
      (((runList ops s).2).map QTask.id).Nodup := by
  induction ops with
  | nil =>
    intro s hids _ _
    refine ⟨List.nodup_nil, ?_, ?_, hids⟩
    · intro i hi; cases hi
    · intro i hi; exact Or.inr hi
  | cons op ops ih =>
    intro s hids hnodup hfresh
    cases op with
    | add t =>
      simp only [addIds] at hnodup hfresh
      rw [List.nodup_cons] at hnodup
      have ht : t.id ∉ s.map QTask.id := hfresh t.id (List.mem_cons_self _ _)
      simp only [runList]
      have hids2 : ((TaskQueue_list.add_task t s).map QTask.id).Nodup := by
        simp only [TaskQueue_list.add_task, List.map_append, List.map_cons,
          List.map_nil]
        simp [List.nodup_append, hids, ht]
      have hfresh2 : ∀ i ∈ addIds ops,
          i ∉ (TaskQueue_list.add_task t s).map QTask.id := by
        intro i hi
        simp only [TaskQueue_list.add_task, List.map_append, List.map_cons,
          List.map_nil, List.mem_append, List.mem_cons]
        rintro (hin | hin | hin)
        · exact hfresh i (List.mem_cons_of_mem _ hi) hin
        · rw [hin] at hi
          exact hnodup.1 hi
        · cases hin
      have hdecomp : ∀ i, i ∈ (TaskQueue_list.add_task t s).map QTask.id →
          i ∈ t.id :: addIds ops ∨ i ∈ s.map QTask.id := by
        intro i hin
        simp only [TaskQueue_list.add_task, List.map_append, List.map_cons,
          List.map_nil, List.mem_append, List.mem_cons] at hin
        rcases hin with hin | hin | hin
        · exact Or.inr hin
        · exact Or.inl (by rw [hin]; exact List.mem_cons_self _ _)
        · cases hin
      obtain ⟨c1, c2, c3, c4⟩ := ih _ hids2 hnodup.2 hfresh2
      refine ⟨c1, ?_, ?_, c4⟩
      · intro i hi
        rcases c2 i hi with h | h
        · exact Or.inl (List.mem_cons_of_mem _ h)
        · exact hdecomp i h
      · intro i hi
        rcases c3 i hi with h | h
        · exact Or.inl (List.mem_cons_of_mem _ h)
        · exact hdecomp i h
    | get R =>
      simp only [addIds] at hnodup hfresh
      simp only [runList]
      have hsub := getL_snd_sublist R s
      have hids2 := List.Nodup.sublist (List.Sublist.map QTask.id hsub) hids
      have hidsub : ∀ i, i ∈ ((TaskQueue_list.get_task R s).2).map QTask.id →
          i ∈ s.map QTask.id := by
        intro i hmem
        obtain ⟨u, hu, hui⟩ := List.mem_map.mp hmem
        exact List.mem_map.mpr ⟨u, hsub.mem hu, hui⟩
      have hfresh2 : ∀ i ∈ addIds ops,
          i ∉ ((TaskQueue_list.get_task R s).2).map QTask.id :=
        fun i hi hmem => hfresh i hi (hidsub i hmem)
      obtain ⟨c1, c2, c3, c4⟩ := ih _ hids2 hnodup hfresh2
      cases hp : pick R s with
      | none =>
        have hfst : (TaskQueue_list.get_task R s).1 = none := by
          rw [TaskQueue_list.get_task_fst, hp]
        rw [hfst, returnedIds_cons_none]
        refine ⟨c1, ?_, ?_, c4⟩
        · intro i hi
          rcases c2 i hi with h | h
          · exact Or.inl h
          · exact Or.inr (hidsub i h)
        · intro i hi
          rcases c3 i hi with h | h
          · exact Or.inl h
          · exact Or.inr (hidsub i h)
      | some b =>
        have hfst : (TaskQueue_list.get_task R s).1 = some b := by
          rw [TaskQueue_list.get_task_fst, hp]
        rw [hfst, returnedIds_cons_some]
        have hbid_s : b.id ∈ s.map QTask.id :=
          List.mem_map.mpr ⟨b, pick_mem R s b hp, rfl⟩
        have hbid_not : b.id ∉ ((TaskQueue_list.get_task R s).2).map QTask.id := by
          rw [TaskQueue_list.get_task_snd_some R s b hp]
          exact removeFirst_id_not_mem b s hids (pick_mem R s b hp)
        refine ⟨?_, ?_, ?_, c4⟩
        · rw [List.nodup_cons]
          refine ⟨?_, c1⟩
          intro hin
          rcases c2 b.id hin with h | h
          · exact hfresh b.id h hbid_s
          · exact hbid_not h
        · intro i hi
          rcases List.mem_cons.mp hi with rfl | hi
          · exact Or.inr hbid_s
          · rcases c2 i hi with h | h
            · exact Or.inl h
            · exact Or.inr (hidsub i h)
        · intro i hi
          rcases c3 i hi with h | h
          · exact Or.inl h
          · exact Or.inr (hidsub i h)

/-! Removal of the returned record from the resident set, per strategy. -/

lemma getL_removes (R : Resources) (s : List QTask) (b : QTask)
    (hids : (s.map QTask.id).Nodup)
    (h : (TaskQueue_list.get_task R s).1 = some b) :
    b.id ∉ ((TaskQueue_list.get_task R s).2).map QTask.id := by
  rw [TaskQueue_list.get_task_fst] at h
  rw [TaskQueue_list.get_task_snd_some R s b h]
  exact removeFirst_id_not_mem b s hids (pick_mem R s b h)

lemma dol_get_eq_of_scan_none (R : Resources) (D : DoLState)
    (hsc : scanKeys (fun p => (findFit R (dolLookup D p)).map (fun u => (p, u)))
      (sortedKeys (aKeys D)) = none) :
    TaskQueue_dict_of_lists.get_task R D = (none, D) := by
  unfold TaskQueue_dict_of_lists.get_task
  rw [hsc]

lemma dol_get_eq_of_scan_some (R : Resources) (D : DoLState) (p : Int) (t : QTask)
    (hsc : scanKeys (fun p => (findFit R (dolLookup D p)).map (fun u => (p, u)))
      (sortedKeys (aKeys D)) = some (p, t)) :
    TaskQueue_dict_of_lists.get_task R D =
      (some t, aSet p (removeFirst t (dolLookup D p)) D) := by
  unfold TaskQueue_dict_of_lists.get_task
  rw [hsc]

lemma dod_get_eq_of_scan_none (R : Resources) (E : DoDState)
    (hsc : scanKeys (fun p => (findFitEntry R (dodLookup E p)).map (fun e => (p, e)))
      (sortedKeys (aKeys E)) = none) :
    TaskQueue_dict_of_dicts.get_task R E = (none, E) := by
  unfold TaskQueue_dict_of_dicts.get_task
  rw [hsc]

lemma dod_get_eq_of_scan_some (R : Resources) (E : DoDState) (p i : Int) (t : QTask)
    (hsc : scanKeys (fun p => (findFitEntry R (dodLookup E p)).map (fun e => (p, e)))
      (sortedKeys (aKeys E)) = some (p, (i, t))) :
    TaskQueue_dict_of_dicts.get_task R E =
      (some t, aSet p (aErase i (dodLookup E p)) E) := by
  unfold TaskQueue_dict_of_dicts.get_task
  rw [hsc]

/-- A hit of the dict-of-lists scan names the first fitting task of the
bucket of the returned priority. -/
lemma dol_scan_inv (R : Resources) (D : DoLState) (p : Int) (t : QTask)
    (hsc : scanKeys (fun p => (findFit R (dolLookup D p)).map (fun u => (p, u)))
      (sortedKeys (aKeys D)) = some (p, t)) :
    findFit R (dolLookup D p) = some t := by
  obtain ⟨q, _, hq⟩ := scanKeys_mem _ _ _ hsc
  cases hf : findFit R (dolLookup D q) with
  | none => rw [hf] at hq; cases hq
  | some u =>
    rw [hf] at hq
    have hqu : (q, u) = (p, t) := by simpa using hq
    rw [Prod.mk.injEq] at hqu
    rw [← hqu.1, hf, hqu.2]

lemma findFitEntry_mem (R : Resources) (B : Bucket) (e : Int × QTask)
    (h : findFitEntry R B = some e) : e ∈ B ∧ fits e.2 R = true := by
  induction B with
  | nil => cases h
  | cons x rest ih =>
    cases hf : fits x.2 R with
    | true =>
      rw [findFitEntry_cons_pos R x rest hf] at h
      cases h
      exact ⟨List.mem_cons_self _ _, hf⟩
    | false =>
      rw [findFitEntry_cons_neg R x rest hf] at h
      obtain ⟨hm, hb⟩ := ih h
      exact ⟨List.mem_cons_of_mem _ hm, hb⟩

lemma dod_scan_inv (R : Resources) (E : DoDState) (p i : Int) (t : QTask)
    (hsc : scanKeys (fun p => (findFitEntry R (dodLookup E p)).map (fun e => (p, e)))
      (sortedKeys (aKeys E)) = some (p, (i, t))) :
    findFitEntry R (dodLookup E p) = some (i, t) := by
  obtain ⟨q, _, hq⟩ := scanKeys_mem _ _ _ hsc
  cases hf : findFitEntry R (dodLookup E q) with
  | none => rw [hf] at hq; cases hq
  | some e0 =>
    rw [hf] at hq
    have hqu : (q, e0) = (p, (i, t)) := by simpa using hq
    rw [Prod.mk.injEq] at hqu
    rw [← hqu.1, hf, hqu.2]

/-- In a three-part concatenation without duplicates, an element of the
middle part occurs in neither outer part. -/
lemma nodup_three_not_mem_mid (A B Cc : List Int) (x : Int)
    (h : ((A ++ B) ++ Cc).Nodup) (hx : x ∈ B) :
    B.Nodup ∧ x ∉ A ∧ x ∉ Cc := by
  rw [List.nodup_append, List.nodup_append] at h
  obtain ⟨⟨_, h2, h12⟩, _, h123⟩ := h
  refine ⟨h2, ?_, ?_⟩
  · intro hmem
    exact h12 hmem hx
  · intro hmem
    exact h123 (List.mem_append.mpr (Or.inr hx)) hmem

/-- A withdrawal hit on the dict-of-lists store removes the returned id from
the residents. -/
lemma dol_get_removes (R : Resources) (D : DoLState) (b : QTask)
    (hids : ((residentsDoL D).map QTask.id).Nodup)
    (h : (TaskQueue_dict_of_lists.get_task R D).1 = some b) :
    b.id ∉ (residentsDoL ((TaskQueue_dict_of_lists.get_task R D).2)).map QTask.id := by
  cases hsc : scanKeys (fun p => (findFit R (dolLookup D p)).map (fun u => (p, u)))
      (sortedKeys (aKeys D)) with
  | none =>
    rw [dol_get_eq_of_scan_none R D hsc] at h
    simp at h
  | some pt =>
    obtain ⟨p, t⟩ := pt
    rw [dol_get_eq_of_scan_some R D p t hsc] at h
    have hb : t = b := by simpa using h
    subst hb
    rw [dol_get_eq_of_scan_some R D p t hsc]
    have hfind := dol_scan_inv R D p t hsc
    have htmem : t ∈ dolLookup D p := (findFit_mem R _ t hfind).1
    have hp : p ∈ aKeys D := by
      apply mem_aKeys_of_find_ne_none
      intro hnone
      rw [dolLookup, hnone] at htmem
      cases htmem
    obtain ⟨J1, J2, h1, h2⟩ := aSet_join D p (removeFirst t (dolLookup D p)) hp
    rw [show (aFind D p).getD [] = dolLookup D p from rfl] at h1
    show t.id ∉ (residentsDoL (aSet p (removeFirst t (dolLookup D p)) D)).map QTask.id
    simp only [residentsDoL] at hids ⊢
    rw [h1] at hids
    rw [h2]
    simp only [List.map_append] at hids
    obtain ⟨hXn, hJ1, hJ2⟩ := nodup_three_not_mem_mid (J1.map QTask.id)
      ((dolLookup D p).map QTask.id) (J2.map QTask.id) t.id hids
      (List.mem_map.mpr ⟨t, htmem, rfl⟩)
    simp only [List.map_append, List.mem_append]
    rintro ((hin | hin) | hin)
    · exact hJ1 hin
    · exact removeFirst_id_not_mem t (dolLookup D p) hXn htmem hin
    · exact hJ2 hin

/-- A withdrawal hit on the dict-of-dicts store removes the returned id from
the residents. -/
lemma dod_get_removes (R : Resources) (E : DoDState) (b : QTask)
    (hkeyed : ∀ pe ∈ E, ∀ e ∈ pe.2, e.1 = e.2.id)
    (hids : ((residentsDoD E).map QTask.id).Nodup)
    (h : (TaskQueue_dict_of_dicts.get_task R E).1 = some b) :
    b.id ∉ (residentsDoD ((TaskQueue_dict_of_dicts.get_task R E).2)).map QTask.id := by
  cases hsc : scanKeys (fun p => (findFitEntry R (dodLookup E p)).map (fun e => (p, e)))
      (sortedKeys (aKeys E)) with
  | none =>
    rw [dod_get_eq_of_scan_none R E hsc] at h
    simp at h
  | some pe =>
    obtain ⟨p, e⟩ := pe
    obtain ⟨i, t⟩ := e
    rw [dod_get_eq_of_scan_some R E p i t hsc] at h
    have hb : t = b := by simpa using h
    subst hb
    rw [dod_get_eq_of_scan_some R E p i t hsc]
    have hfind := dod_scan_inv R E p i t hsc
    have hentry : (i, t) ∈ dodLookup E p := (findFitEntry_mem R _ _ hfind).1
    have hp : p ∈ aKeys E := by
      apply mem_aKeys_of_find_ne_none
      intro hnone
      rw [dodLookup, hnone] at hentry
      cases hentry
    have hbucket_keyed : ∀ e2 ∈ dodLookup E p, e2.1 = e2.2.id := by
      cases hfind2 : aFind E p with
      | none =>
        intro e2 he2
        rw [dodLookup, hfind2] at he2
        cases he2
      | some bkt =>
        intro e2 he2
        rw [dodLookup, hfind2] at he2
        exact hkeyed (p, bkt) (aFind_mem E p bkt hfind2) e2 he2
    have hi : i = t.id := hbucket_keyed (i, t) hentry
    subst hi
    have htmem : t ∈ (dodLookup E p).map Prod.snd :=
      List.mem_map.mpr ⟨(t.id, t), hentry, rfl⟩
    obtain ⟨J1, J2, h1, h2⟩ := aSet_join E p (aErase t.id (dodLookup E p)) hp
    rw [show (aFind E p).getD [] = dodLookup E p from rfl] at h1
    show t.id ∉ (residentsDoD (aSet p (aErase t.id (dodLookup E p)) E)).map QTask.id
    simp only [residentsDoD] at hids ⊢
    rw [h1] at hids
    rw [h2]
    simp only [List.map_append] at hids
    obtain ⟨hXn, hJ1, hJ2⟩ := nodup_three_not_mem_mid
      ((J1.map Prod.snd).map QTask.id)
      (((dodLookup E p).map Prod.snd).map QTask.id)
      ((J2.map Prod.snd).map QTask.id) t.id hids
      (List.mem_map.mpr ⟨t, htmem, rfl⟩)
    simp only [List.map_append, List.mem_append]
    rintro ((hin | hin) | hin)
    · exact hJ1 hin
    · rw [aErase_map_snd _ t hbucket_keyed hXn htmem] at hin
      exact removeFirst_id_not_mem t _ hXn htmem hin
    · exact hJ2 hin

/-! Dictionary states that agree on every bucket (for the empty-bucket
harmlessness claim). -/

section DictEquiv

variable {C : Type}

/-- Two dictionary states with equal buckets at every key; a missing key and
an empty resident bucket are indistinguishable. -/
def bucketEquiv (D D2 : List (Int × List C)) : Prop :=
  ∀ p, (aFind D p).getD [] = (aFind D2 p).getD []

lemma getD_eq_nil_of_not_mem (D : List (Int × List C)) (p : Int)
    (h : p ∉ aKeys D) : (aFind D p).getD [] = [] := by
  rw [aFind_eq_none_of_not_mem D p h]
  rfl

lemma getD_cons (e : Int × List C) (D : List (Int × List C)) (p : Int) :
    (aFind (e :: D) p).getD [] = if e.1 = p then e.2 else (aFind D p).getD [] := by
  by_cases he : e.1 = p <;> simp [aFind, he]

lemma flatten_nil_of_buckets_nil (D : List (Int × List C))
    (hk : (aKeys D).Nodup) (h : ∀ p, (aFind D p).getD [] = []) :
    (D.map Prod.snd).flatten = [] := by
  induction D with
  | nil => rfl
  | cons e rest ih =>
    rw [aKeys_cons, List.nodup_cons] at hk
    have he2 : e.2 = [] := by
      have h0 := h e.1
      rw [getD_cons, if_pos rfl] at h0
      exact h0
    have hrest : ∀ p, (aFind rest p).getD [] = ([] : List C) := by
      intro p
      by_cases hp : p ∈ aKeys rest
      · have hne : e.1 ≠ p := fun hh => hk.1 (hh ▸ hp)
        have h0 := h p
        rw [getD_cons, if_neg hne] at h0
        exact h0
      · exact getD_eq_nil_of_not_mem rest p hp
    rw [List.map_cons, List.flatten_cons, he2, ih hk.2 hrest]
    rfl

lemma getD_aErase_ne (k q : Int) (D : List (Int × List C)) (h : q ≠ k) :
    (aFind (aErase k D) q).getD [] = (aFind D q).getD [] := by
  induction D with
  | nil => rfl
  | cons e rest ih =>
    by_cases he : e.1 = k
    · simp only [aErase, if_pos he]
      rw [getD_cons, if_neg (fun hh : e.1 = q => h (hh.symm.trans he))]
    · simp only [aErase, if_neg he]
      rw [getD_cons, getD_cons]
      by_cases hq : e.1 = q
      · rw [if_pos hq, if_pos hq]
      · rw [if_neg hq, if_neg hq, ih]

lemma getD_aErase_self (k : Int) (D : List (Int × List C))
    (hk : (aKeys D).Nodup) :
    (aFind (aErase k D) k).getD [] = [] := by
  induction D with
  | nil => rfl
  | cons e rest ih =>
    rw [aKeys_cons, List.nodup_cons] at hk
    by_cases he : e.1 = k
    · simp only [aErase, if_pos he]
      exact getD_eq_nil_of_not_mem rest k (he ▸ hk.1)
    · simp only [aErase, if_neg he]
      rw [getD_cons, if_neg he]
      exact ih hk.2

lemma aErase_keys_nodup (k : Int) (D : List (Int × List C))
    (h : (aKeys D).Nodup) : (aKeys (aErase k D)).Nodup :=
  List.Nodup.sublist (List.Sublist.map Prod.fst (aErase_sublist k D)) h

/-- Concatenated buckets decompose around any present key. -/
lemma flatten_perm_erase (D : List (Int × List C)) (p : Int) (hp : p ∈ aKeys D) :
    List.Perm ((D.map Prod.snd).flatten)
      ((aFind D p).getD [] ++ ((aErase p D).map Prod.snd).flatten) := by
  induction D with
  | nil => cases hp
  | cons e rest ih =>
    by_cases he : e.1 = p
    · simp only [aErase, if_pos he, List.map_cons, List.flatten_cons]
      rw [getD_cons, if_pos he]
    · rw [aKeys_cons, List.mem_cons] at hp
      rcases hp with hp | hp
      · exact absurd hp.symm he
      · simp only [aErase, if_neg he, List.map_cons, List.flatten_cons]
        rw [getD_cons, if_neg he]
        exact List.Perm.trans (List.Perm.append_left e.2 (ih hp))
          (List.perm_append_comm_assoc e.2 _ _)

/-- States with equal buckets hold the same entries up to order. -/
lemma flatten_perm_of_equiv (D : List (Int × List C)) : ∀ D2 : List (Int × List C),
    (aKeys D).Nodup → (aKeys D2).Nodup → bucketEquiv D D2 →
    List.Perm ((D.map Prod.snd).flatten) ((D2.map Prod.snd).flatten) := by
  induction D with
  | nil =>
    intro D2 _ hk2 heq
    have hnil : ∀ p, (aFind D2 p).getD [] = ([] : List C) := by
      intro p
      rw [← heq p]
      rfl
    rw [flatten_nil_of_buckets_nil D2 hk2 hnil]
    rfl
  | cons e rest ih =>
    intro D2 hk hk2 heq
    rw [aKeys_cons, List.nodup_cons] at hk
    by_cases hmem : e.1 ∈ aKeys D2
    · have hlook : (aFind D2 e.1).getD [] = e.2 := by
        rw [← heq e.1, getD_cons, if_pos rfl]
      have herase := flatten_perm_erase D2 e.1 hmem
      rw [hlook] at herase
      have heq2 : bucketEquiv rest (aErase e.1 D2) := by
        intro p
        by_cases hpe : p = e.1
        · subst hpe
          rw [getD_eq_nil_of_not_mem rest e.1 hk.1, getD_aErase_self e.1 D2 hk2]
        · rw [getD_aErase_ne _ _ _ hpe, ← heq p, getD_cons,
            if_neg (fun hh : e.1 = p => hpe hh.symm)]
      have hperm := ih (aErase e.1 D2) hk.2 (aErase_keys_nodup e.1 D2 hk2) heq2
      simp only [List.map_cons, List.flatten_cons]
      exact List.Perm.trans (List.Perm.append_left e.2 hperm) herase.symm
    · have he2 : e.2 = [] := by
        have h0 := heq e.1
        rw [getD_cons, if_pos rfl, getD_eq_nil_of_not_mem D2 e.1 hmem] at h0
        exact h0
      have heq2 : bucketEquiv rest D2 := by
        intro p
        by_cases hpe : p = e.1
        · subst hpe
          rw [getD_eq_nil_of_not_mem rest e.1 hk.1, getD_eq_nil_of_not_mem D2 e.1 hmem]
        · rw [← heq p, getD_cons, if_neg (fun hh : e.1 = p => hpe hh.symm)]
      simp only [List.map_cons, List.flatten_cons, he2, List.nil_append]
      exact ih D2 hk.2 hk2 heq2

end DictEquiv

lemma scanKeys_none_forall {C : Type} (f : Int → Option C) (ks : List Int)
    (h : scanKeys f ks = none) : ∀ p ∈ ks, f p = none := by
  induction ks with
  | nil => intro p hp; cases hp
  | cons p ps ih =>
    intro q hq
    simp only [scanKeys] at h
    cases hp : f p with
    | some x => rw [hp] at h; cases h
    | none =>
      rw [hp] at h
      rcases List.mem_cons.mp hq with rfl | hq
      · exact hp
      · exact ih h q hq

/-- Two sorted key lists that both cover the hitting keys of `f` scan to the
same result. -/
lemma scanKeys_eq_of_cover {C : Type} (f : Int → Option C) (ks1 ks2 : List Int)
    (h1 : List.Pairwise (fun a b : Int => a < b) ks1)
    (h2 : List.Pairwise (fun a b : Int => a < b) ks2)
    (hcov1 : ∀ q, f q ≠ none → q ∈ ks1)
    (hcov2 : ∀ q, f q ≠ none → q ∈ ks2) :
    scanKeys f ks1 = scanKeys f ks2 := by
  cases hs : scanKeys f ks1 with
  | none =>
    have hall := scanKeys_none_forall f ks1 hs
    rw [scanKeys_eq_none f ks2 ?_]
    intro p _
    by_cases hf : f p = none
    · exact hf
    · exact hall p (hcov1 p hf)
  | some x =>
    obtain ⟨q, _, hfq, hlow⟩ := scanKeys_some_char f ks1 x h1 hs
    rw [scanKeys_hit f ks2 q x h2
      (hcov2 q (by rw [hfq]; exact fun hh => Option.noConfusion hh)) ?_ hfq]
    intro p _ hplt
    by_cases hf : f p = none
    · exact hf
    · exact hlow p (hcov1 p hf) hplt

/-! Equivalence of bucketed states up to empty buckets, per strategy. -/

/-- Dict-of-lists states with the same bucket content at every priority. -/
def dolEquiv (D D2 : DoLState) : Prop := ∀ p, dolLookup D p = dolLookup D2 p

/-- Dict-of-dicts states with the same bucket content at every priority. -/
def dodEquiv (E E2 : DoDState) : Prop := ∀ p, dodLookup E p = dodLookup E2 p

lemma mem_keys_of_findFit_some (R : Resources) (D : DoLState) (p : Int) (t : QTask)
    (h : findFit R (dolLookup D p) = some t) : p ∈ aKeys D := by
  apply mem_aKeys_of_find_ne_none
  intro hnone
  have h0 : dolLookup D p = [] := by rw [dolLookup, hnone]; rfl
  rw [h0] at h
  cases h

lemma mem_keys_of_findFitEntry_some (R : Resources) (E : DoDState) (p : Int)
    (e : Int × QTask) (h : findFitEntry R (dodLookup E p) = some e) : p ∈ aKeys E := by
  apply mem_aKeys_of_find_ne_none
  intro hnone
  have h0 : dodLookup E p = [] := by rw [dodLookup, hnone]; rfl
  rw [h0] at h
  cases h

/-- A `get_task` call never deletes a priority key of the dict-of-lists
store, even when it empties a bucket. -/
lemma dol_get_keys (R : Resources) (D : DoLState) :
    aKeys ((TaskQueue_dict_of_lists.get_task R D).2) = aKeys D := by
  cases hsc : scanKeys (fun p => (findFit R (dolLookup D p)).map (fun u => (p, u)))
      (sortedKeys (aKeys D)) with
  | none => rw [dol_get_eq_of_scan_none R D hsc]
  | some pt =>
    obtain ⟨p, t⟩ := pt
    rw [dol_get_eq_of_scan_some R D p t hsc]
    exact aKeys_aSet p _ D

/-- A `get_task` call never deletes a priority key of the dict-of-dicts
store, even when it empties a bucket. -/
lemma dod_get_keys (R : Resources) (E : DoDState) :
    aKeys ((TaskQueue_dict_of_dicts.get_task R E).2) = aKeys E := by
  cases hsc : scanKeys (fun p => (findFitEntry R (dodLookup E p)).map (fun e => (p, e)))
      (sortedKeys (aKeys E)) with
  | none => rw [dod_get_eq_of_scan_none R E hsc]
  | some pe =>
    obtain ⟨p, e⟩ := pe
    obtain ⟨i, t⟩ := e
    rw [dod_get_eq_of_scan_some R E p i t hsc]
    exact aKeys_aSet p _ E

lemma dol_add_equiv (t : QTask) (D D2 : DoLState) (heq : dolEquiv D D2) :
    dolEquiv (TaskQueue_dict_of_lists.add_task t D)
      (TaskQueue_dict_of_lists.add_task t D2) := by
  intro p
  rw [dol_add_lookup, dol_add_lookup, heq p]

lemma dod_add_equiv (t : QTask) (E E2 : DoDState) (heq : dodEquiv E E2) :
    dodEquiv (TaskQueue_dict_of_dicts.add_task t E)
      (TaskQueue_dict_of_dicts.add_task t E2) := by
  intro p
  rw [dod_add_lookup, dod_add_lookup, heq p]

lemma dol_get_equiv (R : Resources) (D D2 : DoLState)
    (hk : (aKeys D).Nodup) (hk2 : (aKeys D2).Nodup) (heq : dolEquiv D D2) :
    (TaskQueue_dict_of_lists.get_task R D).1 = (TaskQueue_dict_of_lists.get_task R D2).1 ∧
      dolEquiv ((TaskQueue_dict_of_lists.get_task R D).2)
        ((TaskQueue_dict_of_lists.get_task R D2).2) := by
  have hfeq : (fun p => (findFit R (dolLookup D p)).map (fun u => (p, u)))
      = (fun p => (findFit R (dolLookup D2 p)).map (fun u => (p, u))) := by
    funext p
    rw [heq p]
  have hscan : scanKeys (fun p => (findFit R (dolLookup D p)).map (fun u => (p, u)))
      (sortedKeys (aKeys D)) =
      scanKeys (fun p => (findFit R (dolLookup D2 p)).map (fun u => (p, u)))
      (sortedKeys (aKeys D2)) := by
    rw [← hfeq]
    apply scanKeys_eq_of_cover
    · exact sortedKeys_pairwise_lt _ hk
    · exact sortedKeys_pairwise_lt _ hk2
    · intro q hq
      rw [mem_sortedKeys]
      apply mem_aKeys_of_find_ne_none
      intro hnone
      apply hq
      have h0 : dolLookup D q = [] := by rw [dolLookup, hnone]; rfl
      rw [h0]
      rfl
    · intro q hq
      rw [mem_sortedKeys]
      apply mem_aKeys_of_find_ne_none
      intro hnone
      apply hq
      have h0 : dolLookup D2 q = [] := by rw [dolLookup, hnone]; rfl
      rw [heq q, h0]
      rfl
  cases hsc : scanKeys (fun p => (findFit R (dolLookup D2 p)).map (fun u => (p, u)))
      (sortedKeys (aKeys D2)) with
  | none =>
    have hsc1 : scanKeys (fun p => (findFit R (dolLookup D p)).map (fun u => (p, u)))
        (sortedKeys (aKeys D)) = none := by rw [hscan, hsc]
    rw [dol_get_eq_of_scan_none R D hsc1, dol_get_eq_of_scan_none R D2 hsc]
    exact ⟨rfl, heq⟩
  | some pt =>
    obtain ⟨p, t⟩ := pt
    have hsc1 : scanKeys (fun p => (findFit R (dolLookup D p)).map (fun u => (p, u)))
        (sortedKeys (aKeys D)) = some (p, t) := by rw [hscan, hsc]
    rw [dol_get_eq_of_scan_some R D p t hsc1, dol_get_eq_of_scan_some R D2 p t hsc]
    refine ⟨rfl, ?_⟩
    intro q
    by_cases hq : q = p
    · subst hq
      have hmem1 := mem_keys_of_findFit_some R D q t (dol_scan_inv R D q t hsc1)
      have hmem2 := mem_keys_of_findFit_some R D2 q t (dol_scan_inv R D2 q t hsc)
      rw [dolLookup_aSet_self _ _ _ hmem1, dolLookup_aSet_self _ _ _ hmem2, heq q]
    · rw [dolLookup_aSet_ne _ _ _ _ hq, dolLookup_aSet_ne _ _ _ _ hq]
      exact heq q

lemma dod_get_equiv (R : Resources) (E E2 : DoDState)
    (hk : (aKeys E).Nodup) (hk2 : (aKeys E2).Nodup) (heq : dodEquiv E E2) :
    (TaskQueue_dict_of_dicts.get_task R E).1 = (TaskQueue_dict_of_dicts.get_task R E2).1 ∧
      dodEquiv ((TaskQueue_dict_of_dicts.get_task R E).2)
        ((TaskQueue_dict_of_dicts.get_task R E2).2) := by
  have hfeq : (fun p => (findFitEntry R (dodLookup E p)).map (fun e => (p, e)))
      = (fun p => (findFitEntry R (dodLookup E2 p)).map (fun e => (p, e))) := by
    funext p
    rw [heq p]
  have hscan : scanKeys (fun p => (findFitEntry R (dodLookup E p)).map (fun e => (p, e)))
      (sortedKeys (aKeys E)) =
      scanKeys (fun p => (findFitEntry R (dodLookup E2 p)).map (fun e => (p, e)))
      (sortedKeys (aKeys E2)) := by
    rw [← hfeq]
    apply scanKeys_eq_of_cover
    · exact sortedKeys_pairwise_lt _ hk
    · exact sortedKeys_pairwise_lt _ hk2
    · intro q hq
      rw [mem_sortedKeys]
      apply mem_aKeys_of_find_ne_none
      intro hnone
      apply hq
      have h0 : dodLookup E q = [] := by rw [dodLookup, hnone]; rfl
      rw [h0]
      rfl
    · intro q hq
      rw [mem_sortedKeys]
      apply mem_aKeys_of_find_ne_none
      intro hnone
      apply hq
      have h0 : dodLookup E2 q = [] := by rw [dodLookup, hnone]; rfl
      rw [heq q, h0]
      rfl
  cases hsc : scanKeys (fun p => (findFitEntry R (dodLookup E2 p)).map (fun e => (p, e)))
      (sortedKeys (aKeys E2)) with
  | none =>
    have hsc1 : scanKeys (fun p => (findFitEntry R (dodLookup E p)).map (fun e => (p, e)))
        (sortedKeys (aKeys E)) = none := by rw [hscan, hsc]
    rw [dod_get_eq_of_scan_none R E hsc1, dod_get_eq_of_scan_none R E2 hsc]
    exact ⟨rfl, heq⟩
  | some pe =>
    obtain ⟨p, e⟩ := pe
    obtain ⟨i, t⟩ := e
    have hsc1 : scanKeys (fun p => (findFitEntry R (dodLookup E p)).map (fun e => (p, e)))
        (sortedKeys (aKeys E)) = some (p, (i, t)) := by rw [hscan, hsc]
    rw [dod_get_eq_of_scan_some R E p i t hsc1, dod_get_eq_of_scan_some R E2 p i t hsc]
    refine ⟨rfl, ?_⟩
    intro q
    by_cases hq : q = p
    · subst hq
      have hmem1 := mem_keys_of_findFitEntry_some R E q (i, t) (dod_scan_inv R E q i t hsc1)
      have hmem2 := mem_keys_of_findFitEntry_some R E2 q (i, t) (dod_scan_inv R E2 q i t hsc)
      rw [dodLookup_aSet_self _ _ _ hmem1, dodLookup_aSet_self _ _ _ hmem2, heq q]
    · rw [dodLookup_aSet_ne _ _ _ _ hq, dodLookup_aSet_ne _ _ _ _ hq]
      exact heq q

/-- Runs of the dict-of-lists strategy from bucket-equivalent states with
duplicate-free keys produce identical traces and bucket-equivalent states. -/
lemma runDoL_equiv (ops : List Op) : ∀ D D2 : DoLState,
    (aKeys D).Nodup → (aKeys D2).Nodup → dolEquiv D D2 →
    (runDoL ops D).1 = (runDoL ops D2).1 ∧
      dolEquiv (runDoL ops D).2 (runDoL ops D2).2 ∧
      (aKeys (runDoL ops D).2).Nodup ∧ (aKeys (runDoL ops D2).2).Nodup := by
  induction ops with
  | nil => intro D D2 hk hk2 heq; exact ⟨rfl, heq, hk, hk2⟩
  | cons op ops ih =>
    intro D D2 hk hk2 heq
    cases op with
    | add t =>
      simp only [runDoL]
      exact ih _ _ (dol_add_keys_nodup t D hk) (dol_add_keys_nodup t D2 hk2)
        (dol_add_equiv t D D2 heq)
    | get R =>
      have hg := dol_get_equiv R D D2 hk hk2 heq
      have hknew : (aKeys ((TaskQueue_dict_of_lists.get_task R D).2)).Nodup := by
        rw [dol_get_keys]; exact hk
      have hknew2 : (aKeys ((TaskQueue_dict_of_lists.get_task R D2).2)).Nodup := by
        rw [dol_get_keys]; exact hk2
      obtain ⟨h1, h2, h3, h4⟩ := ih _ _ hknew hknew2 hg.2
      simp only [runDoL]
      exact ⟨by rw [h1, hg.1], h2, h3, h4⟩

/-- Runs of the dict-of-dicts strategy from bucket-equivalent states with
duplicate-free keys produce identical traces and bucket-equivalent states. -/
lemma runDoD_equiv (ops : List Op) : ∀ E E2 : DoDState,
    (aKeys E).Nodup → (aKeys E2).Nodup → dodEquiv E E2 →
    (runDoD ops E).1 = (runDoD ops E2).1 ∧
      dodEquiv (runDoD ops E).2 (runDoD ops E2).2 ∧
      (aKeys (runDoD ops E).2).Nodup ∧ (aKeys (runDoD ops E2).2).Nodup := by
  induction ops with
  | nil => intro E E2 hk hk2 heq; exact ⟨rfl, heq, hk, hk2⟩
  | cons op ops ih =>
    intro E E2 hk hk2 heq
    cases op with
    | add t =>
      simp only [runDoD]
      exact ih _ _ (dod_add_keys_nodup t E hk) (dod_add_keys_nodup t E2 hk2)
        (dod_add_equiv t E E2 heq)
    | get R =>
      have hg := dod_get_equiv R E E2 hk hk2 heq
      have hknew : (aKeys ((TaskQueue_dict_of_dicts.get_task R E).2)).Nodup := by
        rw [dod_get_keys]; exact hk
      have hknew2 : (aKeys ((TaskQueue_dict_of_dicts.get_task R E2).2)).Nodup := by
        rw [dod_get_keys]; exact hk2
      obtain ⟨h1, h2, h3, h4⟩ := ih _ _ hknew hknew2 hg.2
      simp only [runDoD]
      exact ⟨by rw [h1, hg.1], h2, h3, h4⟩

/-- Bucket-equivalent dict-of-lists states hold the same residents up to
order. -/
lemma residentsDoL_perm_of_equiv (D D2 : DoLState)
    (hk : (aKeys D).Nodup) (hk2 : (aKeys D2).Nodup) (heq : dolEquiv D D2) :
    List.Perm (residentsDoL D) (residentsDoL D2) :=
  flatten_perm_of_equiv D D2 hk hk2 heq

/-- Bucket-equivalent dict-of-dicts states hold the same residents up to
order. -/
lemma residentsDoD_perm_of_equiv (E E2 : DoDState)
    (hk : (aKeys E).Nodup) (hk2 : (aKeys E2).Nodup) (heq : dodEquiv E E2) :
    List.Perm (residentsDoD E) (residentsDoD E2) :=
  List.Perm.map Prod.snd (flatten_perm_of_equiv E E2 hk hk2 heq)

/-! No-match behaviour and the effect of a submission on the residents. -/

lemma list_get_no_fit (R : Resources) (s : List QTask)
    (h : ∀ t ∈ s, fits t R = false) :
    TaskQueue_list.get_task R s = (none, s) := by
  have hp : pick R s = none := (pick_eq_none_iff R s).mpr h
  have h1 := TaskQueue_list.get_task_fst R s
  rw [hp] at h1
  have h2 := TaskQueue_list.get_task_snd_none R s hp
  exact Prod.ext_iff.mpr ⟨h1, h2⟩

lemma dol_get_no_fit (R : Resources) (D : DoLState)
    (h : ∀ t ∈ residentsDoL D, fits t R = false) :
    TaskQueue_dict_of_lists.get_task R D = (none, D) := by
  apply dol_get_eq_of_scan_none
  apply scanKeys_eq_none
  intro p _
  have hnone : findFit R (dolLookup D p) = none := by
    rw [findFit_eq_none_iff]
    intro u hu
    exact h u (dolLookup_subset D p u hu)
  rw [hnone]
  rfl

lemma dod_get_no_fit (R : Resources) (E : DoDState)
    (h : ∀ t ∈ residentsDoD E, fits t R = false) :
    TaskQueue_dict_of_dicts.get_task R E = (none, E) := by
  apply dod_get_eq_of_scan_none
  apply scanKeys_eq_none
  intro p _
  have hnone : findFitEntry R (dodLookup E p) = none := by
    rw [findFitEntry_eq_none_iff]
    intro e he
    exact h e.2 (dodLookup_subset E p e he)
  rw [hnone]
  rfl

/-- A submission adds exactly the new task to the dict-of-lists residents. -/
lemma dol_add_residents (t : QTask) (D : DoLState) :
    List.Perm (residentsDoL (TaskQueue_dict_of_lists.add_task t D))
      (t :: residentsDoL D) := by
  induction D with
  | nil => simp [TaskQueue_dict_of_lists.add_task, residentsDoL]
  | cons e rest ih =>
    by_cases he : e.1 = t.priority
    · simp only [TaskQueue_dict_of_lists.add_task, if_pos he, residentsDoL,
        List.map_cons, List.flatten_cons]
      rw [List.append_assoc, List.singleton_append]
      exact List.perm_middle
    · simp only [TaskQueue_dict_of_lists.add_task, if_neg he, residentsDoL,
        List.map_cons, List.flatten_cons]
      simp only [residentsDoL] at ih
      exact List.Perm.trans (List.Perm.append_left e.2 ih) List.perm_middle

/-- A submission whose id is fresh for its bucket adds exactly the new task
to the dict-of-dicts residents. -/
lemma dod_add_residents (t : QTask) (E : DoDState)
    (hfresh : t.id ∉ aKeys (dodLookup E t.priority)) :
    List.Perm (residentsDoD (TaskQueue_dict_of_dicts.add_task t E))
      (t :: residentsDoD E) := by
  induction E with
  | nil => simp [TaskQueue_dict_of_dicts.add_task, residentsDoD, aAssign]
  | cons e rest ih =>
    by_cases he : e.1 = t.priority
    · have hfr2 : t.id ∉ aKeys e.2 := by
        rw [dodLookup_cons, if_pos he] at hfresh
        exact hfresh
      simp only [TaskQueue_dict_of_dicts.add_task, if_pos he, residentsDoD,
        List.map_cons, List.flatten_cons, List.map_append]
      rw [aAssign_of_not_mem _ _ _ hfr2]
      simp only [List.map_append, List.map_cons, List.map_nil]
      rw [List.append_assoc, List.singleton_append]
      exact List.perm_middle
    · have hfr2 : t.id ∉ aKeys (dodLookup rest t.priority) := by
        rw [dodLookup_cons, if_neg he] at hfresh
        exact hfresh
      simp only [TaskQueue_dict_of_dicts.add_task, if_neg he, residentsDoD,
        List.map_cons, List.flatten_cons, List.map_append]
      simp only [residentsDoD] at ih
      exact List.Perm.trans (List.Perm.append_left _ (ih hfr2)) List.perm_middle

/-- If ids are not yet resident and entries are keyed by id, the new task's id
is fresh for its bucket. -/
lemma dod_fresh_bucket (E : DoDState) (t : QTask)
    (hkeyed : ∀ p, ∀ e ∈ dodLookup E p, e.1 = e.2.id)
    (hid : t.id ∉ (residentsDoD E).map QTask.id) :
    t.id ∉ aKeys (dodLookup E t.priority) := by
  intro hmem
  obtain ⟨e, he, hefst⟩ := List.mem_map.mp hmem
  have hkey := hkeyed t.priority e he
  have hres := dodLookup_subset E t.priority e he
  exact hid (List.mem_map.mpr ⟨e.2, hres, by rw [← hkey, hefst]⟩)

/-! Concrete values used by the scenario claims and witnesses. -/

/-- Task (id=1, priority=2, cost ram=5) of the specification scenario. -/
def taskA : QTask := ⟨1, 2, ⟨5, 1, 1⟩, "", ""⟩

/-- Task (id=2, priority=1, cost ram=5) of the specification scenario. -/
def taskB : QTask := ⟨2, 1, ⟨5, 1, 1⟩, "", ""⟩

/-- Task (id=3, priority=2, cost ram=5) of the specification scenario. -/
def taskC : QTask := ⟨3, 2, ⟨5, 1, 1⟩, "", ""⟩

/-- The availability vector with ram=5 of the specification scenario. -/
def availRam5 : Resources := ⟨5, 1, 1⟩

/-- The scenario call sequence: three submissions then four withdrawals. -/
def scenarioOps : List Op :=
  [Op.add taskA, Op.add taskB, Op.add taskC,
   Op.get availRam5, Op.get availRam5, Op.get availRam5, Op.get availRam5]

/-- Task costing ram=500 of the no-match scenario. -/
def bigTask : QTask := ⟨9, 1, ⟨500, 1, 1⟩, "", ""⟩

/-- Resident task with id 1 used by the collision counterexample. -/
def colTask1 : QTask := ⟨1, 1, ⟨1, 1, 1⟩, "", ""⟩

/-- A different task reusing id 1, for the collision counterexample. -/
def colTask2 : QTask := ⟨1, 1, ⟨2, 1, 1⟩, "", ""⟩

/-- C1: strategy equivalence.  For every identical sequence of submit and
withdraw calls with globally unique submitted identifiers, fed to a fresh
instance of each of the three strategies, every withdraw call returns a
record with the same identifier in all three strategies, or absent in all
three. -/
theorem strategy_equivalence (ops : List Op) (h : (addIds ops).Nodup) :
    (runDoL ops []).1.map (Option.map QTask.id) =
        (runList ops []).1.map (Option.map QTask.id) ∧
      (runDoD ops []).1.map (Option.map QTask.id) =
        (runList ops []).1.map (Option.map QTask.id) := by
  have h1 := runDoL_sim ops [] [] InvL_nil
  have h2 := runDoD_sim ops [] [] InvD_nil (by simp) h (by simp)
  rw [h1.1, h2.1]
  exact ⟨rfl, rfl⟩

theorem strategy_equivalence_witness :
    (addIds scenarioOps).Nodup ∧
      ((runDoL scenarioOps []).1.map (Option.map QTask.id) =
          (runList scenarioOps []).1.map (Option.map QTask.id) ∧
        (runDoD scenarioOps []).1.map (Option.map QTask.id) =
          (runList scenarioOps []).1.map (Option.map QTask.id)) :=
  ⟨by decide, strategy_equivalence scenarioOps (by decide)⟩

/-- What selection correctness requires of a returned record: it fits the
availability, its priority value is minimal among the fitting residents, and
no fitting record of the same priority was submitted earlier. -/
def selectedSpec (tasks : List QTask) (R : Resources) (b : QTask) : Prop :=
  fits b R = true ∧
    (∀ u ∈ tasks, fits u R = true → b.priority ≤ u.priority) ∧
    ∃ l1 l2, tasks = l1 ++ b :: l2 ∧
      ∀ u ∈ l1, ¬(fits u R = true ∧ u.priority = b.priority)

lemma pick_selectedSpec (R : Resources) (tasks : List QTask) (b : QTask)
    (h : pick R tasks = some b) : selectedSpec tasks R b := by
  refine ⟨pick_fits R tasks b h, pick_min_priority R tasks b h, ?_⟩
  obtain ⟨l1, l2, heq, hl1⟩ := pick_earliest R tasks b h
  refine ⟨l1, l2, heq, ?_⟩
  intro u hu hcontra
  have hlt := hl1 u hu hcontra.1
  rw [hcontra.2] at hlt
  exact lt_irrefl _ hlt

/-- C2: selection correctness.  For every store of any of the three
strategies built by submitting tasks with unique identifiers, one withdrawal
with availability R returns, if anything, a record that fits within R, has
the numerically lowest priority among fitting residents, and is the earliest
submitted among the fitting records of that priority. -/
theorem selection_correctness (tasks : List QTask) (R : Resources)
    (hids : (tasks.map QTask.id).Nodup) :
    (∀ b, (TaskQueue_list.get_task R (buildList tasks)).1 = some b →
      selectedSpec tasks R b) ∧
    (∀ b, (TaskQueue_dict_of_lists.get_task R (buildDoL tasks)).1 = some b →
      selectedSpec tasks R b) ∧
    (∀ b, (TaskQueue_dict_of_dicts.get_task R (buildDoD tasks)).1 = some b →
      selectedSpec tasks R b) := by
  refine ⟨?_, ?_, ?_⟩
  · intro b hb
    rw [buildList_eq, TaskQueue_list.get_task_fst] at hb
    exact pick_selectedSpec R tasks b hb
  · intro b hb
    rw [(dol_get_sim R tasks (buildDoL tasks) (buildDoL_InvL tasks)).1] at hb
    exact pick_selectedSpec R tasks b hb
  · intro b hb
    rw [(dod_get_sim R tasks (buildDoD tasks) (buildDoD_InvD tasks hids) hids).1] at hb
    exact pick_selectedSpec R tasks b hb

theorem selection_correctness_witness :
    (([taskA, taskB, taskC].map QTask.id).Nodup ∧
      (TaskQueue_list.get_task availRam5 (buildList [taskA, taskB, taskC])).1 =
        some taskB) ∧
      selectedSpec [taskA, taskB, taskC] availRam5 taskB :=
  ⟨⟨by decide, by decide⟩,
    (selection_correctness [taskA, taskB, taskC] availRam5 (by decide)).1 taskB
      (by decide)⟩

/-- C3: the concrete scenario.  On each of the three strategies, submitting
(id=1, pri=2, ram=5), (id=2, pri=1, ram=5), (id=3, pri=2, ram=5) to a fresh
store and withdrawing four times with ram=5 available returns id 2, then
id 1, then id 3, then absent. -/
theorem concrete_scenario :
    (runList scenarioOps []).1.map (Option.map QTask.id) =
        [some 2, some 1, some 3, none] ∧
      (runDoL scenarioOps []).1.map (Option.map QTask.id) =
        [some 2, some 1, some 3, none] ∧
      (runDoD scenarioOps []).1.map (Option.map QTask.id) =
        [some 2, some 1, some 3, none] := by
  decide

/-- C4: no-match is non-destructive.  If no resident record fits the given
availability, `get_task` returns the explicit absent value without any
fault (the function is total), the store is returned unchanged, and the
multiset of resident identifiers is identical before and after the call —
including on an empty store. -/
theorem no_match_nondestructive (R : Resources) :
    (∀ s : List QTask, (∀ t ∈ s, fits t R = false) →
      TaskQueue_list.get_task R s = (none, s) ∧
        ((TaskQueue_list.get_task R s).2).map QTask.id = s.map QTask.id) ∧
    (∀ D : DoLState, (∀ t ∈ residentsDoL D, fits t R = false) →
      TaskQueue_dict_of_lists.get_task R D = (none, D) ∧
        (residentsDoL ((TaskQueue_dict_of_lists.get_task R D).2)).map QTask.id =
          (residentsDoL D).map QTask.id) ∧
    (∀ E : DoDState, (∀ t ∈ residentsDoD E, fits t R = false) →
      TaskQueue_dict_of_dicts.get_task R E = (none, E) ∧
        (residentsDoD ((TaskQueue_dict_of_dicts.get_task R E).2)).map QTask.id =
          (residentsDoD E).map QTask.id) := by
  refine ⟨?_, ?_, ?_⟩
  · intro s hs
    have h0 := list_get_no_fit R s hs
    exact ⟨h0, by rw [h0]⟩
  · intro D hD
    have h0 := dol_get_no_fit R D hD
    exact ⟨h0, by rw [h0]⟩
  · intro E hE
    have h0 := dod_get_no_fit R E hE
    exact ⟨h0, by rw [h0]⟩

theorem no_match_nondestructive_witness :
    (∀ t ∈ [bigTask], fits t availRam5 = false) ∧
      (TaskQueue_list.get_task availRam5 [bigTask] = (none, [bigTask]) ∧
        ((TaskQueue_list.get_task availRam5 [bigTask]).2).map QTask.id =
          [bigTask].map QTask.id) :=
  ⟨by decide, (no_match_nondestructive availRam5).1 [bigTask] (by decide)⟩

/-- C5 counterexample: identifier collisions are not rejected.  Submitting a
task with the identifier of a resident record raises no fault: the flat-list
strategy appends it, leaving two resident records with identifier 1, and the
dict-of-dicts strategy silently overwrites the resident record stored under
the same priority and identifier. -/
theorem identifier_collision_counterexample :
    (TaskQueue_list.add_task colTask2 [colTask1]).map QTask.id = [1, 1] ∧
      TaskQueue_dict_of_dicts.add_task colTask2 [(1, [(1, colTask1)])] =
        [(1, [(1, colTask2)])] := by
  decide

/-- C5 amended: no strategy checks identifier collisions; `add_task` always
succeeds.  The flat-list strategy appends the colliding task, so a second
resident record with the same identifier exists; the dict-of-lists strategy
likewise adds the task to its bucket; the dict-of-dicts strategy, when the
colliding identifier is already a key of the bucket of the task's priority,
silently overwrites the stored record in place, leaving the bucket's key set
unchanged. -/
theorem identifier_collision_amended :
    (∀ (s : List QTask) (t : QTask), t.id ∈ s.map QTask.id →
      TaskQueue_list.add_task t s = s ++ [t] ∧
        ((TaskQueue_list.add_task t s).map QTask.id).count t.id =
          ((s.map QTask.id).count t.id) + 1) ∧
    (∀ (D : DoLState) (t : QTask), t.id ∈ (residentsDoL D).map QTask.id →
      ((residentsDoL (TaskQueue_dict_of_lists.add_task t D)).map QTask.id).count t.id =
        (((residentsDoL D).map QTask.id).count t.id) + 1) ∧
    (∀ (E : DoDState) (t : QTask), t.id ∈ aKeys (dodLookup E t.priority) →
      aKeys (dodLookup (TaskQueue_dict_of_dicts.add_task t E) t.priority) =
        aKeys (dodLookup E t.priority) ∧
      aFind (dodLookup (TaskQueue_dict_of_dicts.add_task t E) t.priority) t.id =
        some t) := by
  refine ⟨?_, ?_, ?_⟩
  · intro s t _
    refine ⟨rfl, ?_⟩
    simp [TaskQueue_list.add_task]
  · intro D t _
    rw [(List.Perm.map QTask.id (dol_add_residents t D)).count_eq]
    simp [List.count_cons]
  · intro E t hmem
    rw [dod_add_lookup, if_pos rfl]
    exact ⟨aKeys_aAssign_of_mem t.id t _ hmem, aFind_aAssign_self t.id t _⟩

theorem identifier_collision_amended_witness :
    colTask2.id ∈ [colTask1].map QTask.id ∧
      (TaskQueue_list.add_task colTask2 [colTask1] = [colTask1] ++ [colTask2] ∧
        ((TaskQueue_list.add_task colTask2 [colTask1]).map QTask.id).count colTask2.id =
          (([colTask1].map QTask.id).count colTask2.id) + 1) :=
  ⟨by decide, identifier_collision_amended.1 [colTask1] colTask2 (by decide)⟩

/-- C6: exactly-once withdrawal.  Over any call sequence with unique
submitted identifiers on a fresh store, no identifier is returned by two
different withdrawals and every returned identifier was previously
submitted, in each of the three strategies (their traces coincide); and a
withdrawal that returns a record immediately removes it from the resident
set of its store. -/
theorem exactly_once_withdrawal :
    (∀ ops : List Op, (addIds ops).Nodup →
      ((returnedIds (runList ops []).1).Nodup ∧
        (∀ i ∈ returnedIds (runList ops []).1, i ∈ addIds ops)) ∧
      (runDoL ops []).1 = (runList ops []).1 ∧
      (runDoD ops []).1 = (runList ops []).1) ∧
    (∀ (R : Resources) (s : List QTask) (b : QTask), (s.map QTask.id).Nodup →
      (TaskQueue_list.get_task R s).1 = some b →
      b.id ∉ ((TaskQueue_list.get_task R s).2).map QTask.id) ∧
    (∀ (R : Resources) (D : DoLState) (b : QTask),
      ((residentsDoL D).map QTask.id).Nodup →
      (TaskQueue_dict_of_lists.get_task R D).1 = some b →
      b.id ∉ (residentsDoL ((TaskQueue_dict_of_lists.get_task R D).2)).map QTask.id) ∧
    (∀ (R : Resources) (E : DoDState) (b : QTask),
      (∀ pe ∈ E, ∀ e ∈ pe.2, e.1 = e.2.id) →
      ((residentsDoD E).map QTask.id).Nodup →
      (TaskQueue_dict_of_dicts.get_task R E).1 = some b →
      b.id ∉ (residentsDoD ((TaskQueue_dict_of_dicts.get_task R E).2)).map QTask.id) := by
  refine ⟨?_, getL_removes, dol_get_removes, dod_get_removes⟩
  intro ops h
  have hmain := runList_exactly_once ops [] (by simp) h (by simp)
  have h1 := runDoL_sim ops [] [] InvL_nil
  have h2 := runDoD_sim ops [] [] InvD_nil (by simp) h (by simp)
  refine ⟨⟨hmain.1, ?_⟩, h1.1, h2.1⟩
  intro i hi
  rcases hmain.2.1 i hi with hh | hh
  · exact hh
  · simp at hh

theorem exactly_once_withdrawal_witness :
    (addIds scenarioOps).Nodup ∧
      (((returnedIds (runList scenarioOps []).1).Nodup ∧
        (∀ i ∈ returnedIds (runList scenarioOps []).1, i ∈ addIds scenarioOps)) ∧
      (runDoL scenarioOps []).1 = (runList scenarioOps []).1 ∧
      (runDoD scenarioOps []).1 = (runList scenarioOps []).1) :=
  ⟨by decide, exactly_once_withdrawal.1 scenarioOps (by decide)⟩

/-- C7: fit relation correctness.  `Resources.le` holds iff every component
of the left vector is at most the corresponding component of the right
vector; the relation is reflexive; and there are vectors A, B with A fitting
within B but B not fitting within A. -/
theorem fit_relation_correctness :
    (∀ a b : Resources, Resources.le a b = true ↔
      (a.ram ≤ b.ram ∧ a.cpu_cores ≤ b.cpu_cores ∧ a.gpu_count ≤ b.gpu_count)) ∧
    (∀ a : Resources, Resources.le a a = true) ∧
    (∃ a b : Resources, Resources.le a b = true ∧ Resources.le b a = false) := by
  refine ⟨?_, ?_, ?_⟩
  · intro a b
    simp [Resources.le, and_assoc]
  · intro a
    simp [Resources.le]
  · exact ⟨⟨1, 1, 1⟩, ⟨2, 1, 1⟩, by decide, by decide⟩

/-- C8: the fits-within relation is a partial order — reflexive,
antisymmetric (with componentwise, hence structural, equality) and
transitive — but not total: two vectors can be mutually non-fitting. -/
theorem fit_partial_order :
    (∀ a : Resources, Resources.le a a = true) ∧
    (∀ a b : Resources, Resources.le a b = true → Resources.le b a = true →
      a = b) ∧
    (∀ a b c : Resources, Resources.le a b = true → Resources.le b c = true →
      Resources.le a c = true) ∧
    (∃ a b : Resources, Resources.le a b = false ∧ Resources.le b a = false) := by
  refine ⟨?_, ?_, ?_, ?_⟩
  · intro a
    simp [Resources.le]
  · intro a b hab hba
    simp only [Resources.le, Bool.and_eq_true, decide_eq_true_eq] at hab hba
    cases a with
    | mk ar ac ag =>
      cases b with
      | mk br bc bg =>
        simp only at hab hba
        simp only [Resources.mk.injEq]
        exact ⟨le_antisymm hab.1.1 hba.1.1, le_antisymm hab.1.2 hba.1.2,
          le_antisymm hab.2 hba.2⟩
  · intro a b c hab hbc
    simp only [Resources.le, Bool.and_eq_true, decide_eq_true_eq] at hab hbc ⊢
    exact ⟨⟨le_trans hab.1.1 hbc.1.1, le_trans hab.1.2 hbc.1.2⟩,
      le_trans hab.2 hbc.2⟩
  · exact ⟨⟨1, 2, 1⟩, ⟨2, 1, 1⟩, by decide, by decide⟩

theorem fit_partial_order_witness :
    (Resources.le ⟨1, 2, 3⟩ ⟨1, 2, 3⟩ = true ∧
      (⟨1, 2, 3⟩ : Resources) = ⟨1, 2, 3⟩) :=
  ⟨by decide, fit_partial_order.2.1 ⟨1, 2, 3⟩ ⟨1, 2, 3⟩ (by decide) (by decide)⟩

/-- C9: submit postcondition and frame.  Submitting always succeeds (the
functions are total): the flat-list store becomes exactly the old store plus
the new record at the end; in the bucketed stores only the bucket of the
task's priority changes, by appending the new record, and the resident
multiset gains exactly that record — for the dict-of-dicts store under the
contract that the new identifier is not already resident (entries being
keyed by their record's id). -/
theorem submit_postcondition_frame :
    (∀ (s : List QTask) (t : QTask), TaskQueue_list.add_task t s = s ++ [t]) ∧
    (∀ (D : DoLState) (t : QTask),
      (∀ p, dolLookup (TaskQueue_dict_of_lists.add_task t D) p =
        if p = t.priority then dolLookup D p ++ [t] else dolLookup D p) ∧
      List.Perm (residentsDoL (TaskQueue_dict_of_lists.add_task t D))
        (t :: residentsDoL D)) ∧
    (∀ (E : DoDState) (t : QTask),
      (∀ p, ∀ e ∈ dodLookup E p, e.1 = e.2.id) →
      t.id ∉ (residentsDoD E).map QTask.id →
      (∀ p, dodLookup (TaskQueue_dict_of_dicts.add_task t E) p =
        if p = t.priority then dodLookup E p ++ [(t.id, t)] else dodLookup E p) ∧
      List.Perm (residentsDoD (TaskQueue_dict_of_dicts.add_task t E))
        (t :: residentsDoD E)) := by
  refine ⟨?_, ?_, ?_⟩
  · intro s t
    rfl
  · intro D t
    exact ⟨dol_add_lookup t D, dol_add_residents t D⟩
  · intro E t hkeyed hid
    have hfresh := dod_fresh_bucket E t hkeyed hid
    refine ⟨?_, dod_add_residents t E hfresh⟩
    intro p
    rw [dod_add_lookup]
    by_cases hp : p = t.priority
    · rw [if_pos hp, if_pos hp]
      subst hp
      rw [aAssign_of_not_mem _ _ _ hfresh]
    · rw [if_neg hp, if_neg hp]

theorem submit_postcondition_frame_witness :
    ((∀ p, ∀ e ∈ dodLookup ([(2, [(1, taskA)])] : DoDState) p, e.1 = e.2.id) ∧
      taskB.id ∉ (residentsDoD [(2, [(1, taskA)])]).map QTask.id) ∧
      List.Perm
        (residentsDoD (TaskQueue_dict_of_dicts.add_task taskB [(2, [(1, taskA)])]))
        (taskB :: residentsDoD [(2, [(1, taskA)])]) := by
  have hkeyed : ∀ p, ∀ e ∈ dodLookup ([(2, [(1, taskA)])] : DoDState) p,
      e.1 = e.2.id := by
    intro p e he
    rw [dodLookup_cons] at he
    by_cases h2 : (2 : Int) = p
    · rw [if_pos h2] at he
      rw [List.mem_singleton] at he
      subst he
      decide
    · rw [if_neg h2] at he
      simp [dolLookup, dodLookup, aFind] at he
  refine ⟨⟨hkeyed, by decide⟩, ?_⟩
  exact (submit_postcondition_frame.2.2 [(2, [(1, taskA)])] taskB hkeyed
    (by decide)).2

/-- C10: empty buckets are harmless.  In the two bucketed strategies a
withdrawal never deletes a priority key, so emptied buckets stay resident;
and two states with identical bucket contents at every priority — hence
differing only in which empty buckets are materialised — produce identical
results on every subsequent call sequence and hold the same resident records
(as multisets) afterwards. -/
theorem empty_buckets_harmless :
    (∀ (R : Resources) (D : DoLState),
      aKeys ((TaskQueue_dict_of_lists.get_task R D).2) = aKeys D) ∧
    (∀ (R : Resources) (E : DoDState),
      aKeys ((TaskQueue_dict_of_dicts.get_task R E).2) = aKeys E) ∧
    (∀ (D D2 : DoLState), (aKeys D).Nodup → (aKeys D2).Nodup → dolEquiv D D2 →
      ∀ ops : List Op, (runDoL ops D).1 = (runDoL ops D2).1 ∧
        List.Perm (residentsDoL (runDoL ops D).2) (residentsDoL (runDoL ops D2).2)) ∧
    (∀ (E E2 : DoDState), (aKeys E).Nodup → (aKeys E2).Nodup → dodEquiv E E2 →
      ∀ ops : List Op, (runDoD ops E).1 = (runDoD ops E2).1 ∧
        List.Perm (residentsDoD (runDoD ops E).2) (residentsDoD (runDoD ops E2).2)) := by
  refine ⟨dol_get_keys, dod_get_keys, ?_, ?_⟩
  · intro D D2 hk hk2 heq ops
    obtain ⟨h1, h2, h3, h4⟩ := runDoL_equiv ops D D2 hk hk2 heq
    exact ⟨h1, residentsDoL_perm_of_equiv _ _ h3 h4 h2⟩
  · intro E E2 hk hk2 heq ops
    obtain ⟨h1, h2, h3, h4⟩ := runDoD_equiv ops E E2 hk hk2 heq
    exact ⟨h1, residentsDoD_perm_of_equiv _ _ h3 h4 h2⟩

theorem empty_buckets_harmless_witness :
    ((aKeys ([(2, ([] : List QTask))] : DoLState)).Nodup ∧
      (aKeys ([] : DoLState)).Nodup ∧ dolEquiv [(2, [])] []) ∧
      ((runDoL [Op.get availRam5] [(2, [])]).1 =
          (runDoL [Op.get availRam5] []).1 ∧
        List.Perm (residentsDoL (runDoL [Op.get availRam5] [(2, [])]).2)
          (residentsDoL (runDoL [Op.get availRam5] []).2)) := by
  have hequiv : dolEquiv [(2, ([] : List QTask))] [] := by
    intro p
    rw [dolLookup_cons]
    by_cases h2 : (2 : Int) = p
    · rw [if_pos h2]
      rfl
    · rw [if_neg h2]
  refine ⟨⟨by decide, by decide, hequiv⟩, ?_⟩
  exact empty_buckets_harmless.2.2.1 [(2, [])] [] (by decide) (by decide) hequiv
    [Op.get availRam5]

theorem fit_relation_correctness_witness :
    Resources.le ⟨1, 1, 1⟩ ⟨2, 1, 1⟩ = true ↔
      ((1 : Int) ≤ 2 ∧ (1 : Int) ≤ 1 ∧ (1 : Int) ≤ 1) :=
  fit_relation_correctness.1 ⟨1, 1, 1⟩ ⟨2, 1, 1⟩
